import Mathlib

/-!
# Deterministic analysis layer (`analysis.js`)

A shallow embedding of the n8n code-node script `analysis.js` and the
properties its specification states about it.

Conventions of the embedding.

* A JavaScript string is a Lean `String`; the operations used by the script
  (`split("\n")`, `trim`, `join`, `===`, truthiness) are defined below on the
  underlying character lists.
* An optional property (`undefined` / `null`) is an `Option`.
* A JavaScript object used as a dictionary is an association list of its own
  enumerable properties. The order of the list is the order of insertion; the
  properties stated about it below do not depend on the position of a key.
* `Date.parse` is fixed by ECMAScript only on the date-time string format; the
  rest is a parameter (`engine`) of the embedding.
-/

namespace Analysis

/-! ## JavaScript string primitives -/

/-- The test `x` of a JavaScript condition on an optional string: absent and the
empty string are falsy, every other string is truthy. -/
def truthy : Option String → Bool
  | none => false
  | some s => s != ""

/-- The expression `x || d` on an optional string `x` and a string `d`. -/
def orDefault (x : Option String) (d : String) : String :=
  match x with
  | none => d
  | some s => if s = "" then d else s

/-- The code points removed by `String.prototype.trim`: ECMAScript `WhiteSpace`
(TAB, VT, FF, ZWNBSP and the category Zs) and `LineTerminator` (LF, CR, LS, PS). -/
def isTrimChar (c : Char) : Bool :=
  let n := c.toNat
  n == 0x09 || n == 0x0A || n == 0x0B || n == 0x0C || n == 0x0D || n == 0x20 ||
  n == 0xA0 || n == 0x1680 || (decide (0x2000 ≤ n) && decide (n ≤ 0x200A)) ||
  n == 0x2028 || n == 0x2029 || n == 0x202F || n == 0x205F || n == 0x3000 ||
  n == 0xFEFF

/-- Characters of `s.trim()`. -/
def trimChars (cs : List Char) : List Char :=
  ((cs.dropWhile isTrimChar).reverse.dropWhile isTrimChar).reverse

/-- The method `s.trim()`. -/
def trim (s : String) : String := ⟨trimChars s.data⟩

/-- Pieces of a character list cut at every line feed; the pieces of the empty
list are one empty piece, as for `"".split("\n")`. -/
def splitChars : List Char → List (List Char)
  | [] => [[]]
  | c :: cs =>
    if c = '\n' then [] :: splitChars cs
    else
      match splitChars cs with
      | [] => [[c]]
      | l :: ls => (c :: l) :: ls

/-- The call `s.split("\n")`. -/
def split (s : String) : List String := (splitChars s.data).map String.mk

/-- The method `Array.prototype.join` on an array of strings. -/
def join (sep : String) : List String → String
  | [] => ""
  | [a] => a
  | a :: b :: rest => a ++ sep ++ join sep (b :: rest)

/-- Characters of `s.toLowerCase()` for the letters A to Z. The script only
compares the result with `"readme.md"`; no character outside A to Z has a
lower-case form that is one of the letters of that name, so on this comparison
the ASCII mapping and the Unicode mapping of the engine agree. -/
def toLowerCase (s : String) : String := ⟨s.data.map Char.toLower⟩

/-! ## Data model -/

/-- The value of a key of `repo.files`: an object with an optional `content`. -/
structure FileObj where
  content : Option String
deriving DecidableEq, Repr

/-- The nested `owner` object of a repository payload. -/
structure Owner where
  login : Option String
deriving DecidableEq, Repr

/-- A repository payload (`item.json`). `files` lists the keys of the mapping in
the order `Object.keys` enumerates them. -/
structure RawRepository where
  name : String
  description : Option String
  language : Option String
  updated_at : Option String
  html_url : Option String
  topics : Option (List String)
  files : Option (List (String × FileObj))
  owner : Option Owner
deriving DecidableEq, Repr

/-- An n8n item: the payload sits under `json`. -/
structure Item where
  json : RawRepository
deriving DecidableEq, Repr

/-- The pair returned by `extractReadmeMainIdea`. -/
structure ReadmeExtraction where
  readme : String
  mainIdea : String
deriving DecidableEq, Repr

/-- An entry of `deterministicReview`. -/
structure ReviewRecord where
  name : String
  description : String
  language : String
  mainIdea : String
  strengths : List String
  weaknesses : List String
  html_url : String
  updated_at : String
  topics : List String
deriving DecidableEq, Repr

/-- An entry of `repoDetails`. -/
structure RepoDetail where
  name : String
  description : String
  language : String
  html_url : String
  updated_at : String
  topics : List String
  readme : String
  mainIdea : String
deriving DecidableEq, Repr

/-! ## `extractReadmeMainIdea` -/

/-- The predicate of the `find` call: `f.toLowerCase() === "readme.md"`. -/
def isReadmeKey (f : String) : Bool := toLowerCase f == "readme.md"

/-- The sentinel pair returned when no README is found. -/
def noReadme : ReadmeExtraction :=
  { readme := "No README content", mainIdea := "No main idea available" }

/-- The lines kept for the main idea:
`content.split("\n").map(l => l.trim()).filter(l => l.length > 0)`. -/
def readmeLines (content : String) : List String :=
  ((split content).map trim).filter (fun l => l != "")

/-- The key bound to `readmeFile`:
`Object.keys(repo.files).find(f => f.toLowerCase() === "readme.md")`. -/
def readmeFileOf (files : List (String × FileObj)) : Option String :=
  (files.map Prod.fst).find? isReadmeKey

/-- The last three statements of `extractReadmeMainIdea`, from the value bound to
`content`. -/
def extractionOf (content : String) : ReadmeExtraction :=
  let lines := readmeLines content
  let mainIdea := join " " (lines.take 3)
  { readme := content
    mainIdea := orDefault (some mainIdea) "README exists but no main idea detected" }

/-- The function `extractReadmeMainIdea(repo)`. The key found by `find` is a key
of `repo.files`, so the property read `repo.files[readmeFile]` yields an object
(`lookup_readmeFileOf`); the branch for a failed read is never taken. -/
def extractReadmeMainIdea (repo : RawRepository) : ReadmeExtraction :=
  match repo.files with
  | none => noReadme
  | some files =>
    match readmeFileOf files with
    | none => noReadme
    | some readmeFile =>
      match files.lookup readmeFile with
      | some obj => extractionOf (orDefault obj.content "")
      | none => extractionOf ""

/-! ## `Date` -/

/-- Value of a decimal digit. -/
def digitVal (c : Char) : Option Nat :=
  if c.isDigit then some (c.toNat - 48) else none

/-- Value of a run of decimal digits, most significant first. -/
def digitsVal (cs : List Char) : Option Nat :=
  cs.foldl (fun acc c => acc.bind (fun a => (digitVal c).map (fun d => 10 * a + d))) (some 0)

/-- ECMAScript `DayFromYear`: the day number of 1 January of year `y`. -/
def dayFromYear (y : Int) : Int :=
  365 * (y - 1970) + (y - 1969) / 4 - (y - 1901) / 100 + (y - 1601) / 400

/-- Leap years of the proleptic Gregorian calendar. -/
def isLeapYear (y : Nat) : Bool :=
  (y % 4 == 0 && y % 100 != 0) || y % 400 == 0

/-- Number of days of month `m` (1 to 12) of year `y`; 0 for any other `m`. -/
def daysInMonth (y m : Nat) : Nat :=
  if m = 2 then (if isLeapYear y then 29 else 28)
  else if m = 4 ∨ m = 6 ∨ m = 9 ∨ m = 11 then 30
  else if 1 ≤ m ∧ m ≤ 12 then 31
  else 0

/-- Days of year `y` that precede month `m`. -/
def daysBeforeMonth (y m : Nat) : Nat :=
  ((List.range (m - 1)).map (fun i => daysInMonth y (i + 1))).sum

/-- ECMAScript `MakeDate(MakeDay(y, m - 1, d), MakeTime(h, mi, s, 0))` for a
calendar date that exists: milliseconds since 1970-01-01T00:00:00Z. -/
def utcMillis (y m d h mi s : Nat) : Int :=
  (dayFromYear y + daysBeforeMonth y m + d - 1) * 86400000 +
    (h * 3600000 + mi * 60000 + s * 1000 : Nat)

/-- Time value of a calendar date, when the fields are in range. -/
def checkedMillis (y m d h mi s : Nat) : Option Int :=
  if 1 ≤ m ∧ m ≤ 12 ∧ 1 ≤ d ∧ d ≤ daysInMonth y m ∧ h ≤ 23 ∧ mi ≤ 59 ∧ s ≤ 59 then
    some (utcMillis y m d h mi s)
  else none

/-- The part of `Date.parse` that ECMAScript fixes for every engine and every
time zone and that the claims need: the date-only form `YYYY-MM-DD` (UTC
midnight) and the form `YYYY-MM-DDTHH:mm:ssZ` used by the hosting API. Any other
text is left to the engine. -/
def parseIsoUtc (cs : List Char) : Option Int :=
  if cs.length = 10 ∧ (cs.drop 4).take 1 = ['-'] ∧ (cs.drop 7).take 1 = ['-'] then
    (digitsVal (cs.take 4)).bind fun y =>
    (digitsVal ((cs.drop 5).take 2)).bind fun m =>
    (digitsVal ((cs.drop 8).take 2)).bind fun d =>
    checkedMillis y m d 0 0 0
  else if cs.length = 20 ∧ (cs.drop 4).take 1 = ['-'] ∧ (cs.drop 7).take 1 = ['-'] ∧
      (cs.drop 10).take 1 = ['T'] ∧ (cs.drop 13).take 1 = [':'] ∧
      (cs.drop 16).take 1 = [':'] ∧ (cs.drop 19).take 1 = ['Z'] then
    (digitsVal (cs.take 4)).bind fun y =>
    (digitsVal ((cs.drop 5).take 2)).bind fun m =>
    (digitsVal ((cs.drop 8).take 2)).bind fun d =>
    (digitsVal ((cs.drop 11).take 2)).bind fun h =>
    (digitsVal ((cs.drop 14).take 2)).bind fun mi =>
    (digitsVal ((cs.drop 17).take 2)).bind fun s =>
    checkedMillis y m d h mi s
  else none

/-- The function `Date.parse`: `none` is `NaN`. Outside `parseIsoUtc` the result
depends on the engine (and on the local time zone), which is the parameter
`engine`. -/
def dateParse (engine : String → Option Int) (s : String) : Option Int :=
  match parseIsoUtc s.data with
  | some t => some t
  | none => engine s

/-- The time value of `new Date(x)` for an optional string `x`; `none` is the
invalid date. An absent `x` gives the invalid date. -/
def newDate (engine : String → Option Int) : Option String → Option Int
  | none => none
  | some s => dateParse engine s

/-- The comparison `a > b` of two dates: false as soon as one is invalid. -/
def dateGt (a b : Option Int) : Bool :=
  match a, b with
  | some x, some y => decide (y < x)
  | _, _ => false

/-! ## The `languages` object -/

/-- A value stored under a key of `languages`: a count, or a string left by a
string concatenation (its characters depend on the engine and are not
modelled). -/
inductive LangValue where
  | num (n : Nat)
  | text
deriving DecidableEq, Repr

/-- Names of the function-valued properties that `languages`, created by an empty
object literal, inherits from `Object.prototype`. -/
def protoFunctionProps : List String :=
  ["constructor", "hasOwnProperty", "isPrototypeOf", "propertyIsEnumerable",
   "toLocaleString", "toString", "valueOf", "__defineGetter__", "__defineSetter__",
   "__lookupGetter__", "__lookupSetter__"]

/-- Assignment to an own property that exists: its value is replaced in place. -/
def setOwn (k : String) (v : LangValue) : List (String × LangValue) → List (String × LangValue)
  | [] => []
  | (k1, v1) :: rest => if k1 = k then (k1, v) :: rest else (k1, v1) :: setOwn k v rest

/-- The statement `languages[k] = (languages[k] || 0) + 1` for a non-empty key.

`languages` is created by an object literal, so a read of a key that is not an
own property falls through to `Object.prototype`:
* for `"__proto__"` the getter returns the prototype object, the sum is a string
  and the setter ignores a value that is neither an object nor `null`: no own
  property is created;
* for an inherited method the sum is a string, stored as a new own property;
* for any other key the read is `undefined` and the count 1 is stored.
For an own property holding a count the count is incremented; for one holding a
string, `+ 1` appends to the string. -/
def trackLanguage (languages : List (String × LangValue)) (k : String) :
    List (String × LangValue) :=
  match languages.lookup k with
  | some (LangValue.num n) => setOwn k (LangValue.num (n + 1)) languages
  | some LangValue.text => setOwn k LangValue.text languages
  | none =>
    if k = "__proto__" then languages
    else if k ∈ protoFunctionProps then languages ++ [(k, LangValue.text)]
    else languages ++ [(k, LangValue.num 1)]

/-! ## The loop over `items` -/

/-- The array `strengths` built for one repository. -/
def strengthsOf (repo : RawRepository) (ex : ReadmeExtraction) : List String :=
  (match repo.language with
    | some l => if l != "" && l != "Unknown" then ["Uses " ++ l] else []
    | none => []) ++
  (match repo.description with
    | some d =>
      if d != "" && d != "No description provided" then
        ["Has description: \"" ++ d ++ "\""]
      else []
    | none => []) ++
  (if ex.readme != "" && ex.readme != "No README content" then ["Has README"] else []) ++
  (if ex.mainIdea != "" && ex.mainIdea != "No main idea available" then
    ["Main idea: " ++ ex.mainIdea] else [])

/-- The array `weaknesses` built for one repository. -/
def weaknessesOf (repo : RawRepository) (ex : ReadmeExtraction) : List String :=
  (if !(truthy repo.description) || repo.description == some "No description provided" then
    ["Missing description"] else []) ++
  (if ex.readme == "" || ex.readme == "No README content" then ["Missing README"] else [])

/-- The object pushed on `deterministicReview` for one repository. -/
def reviewOf (repo : RawRepository) : ReviewRecord :=
  let ex := extractReadmeMainIdea repo
  { name := repo.name
    description := orDefault repo.description "No description provided"
    language := orDefault repo.language "Unknown"
    mainIdea := ex.mainIdea
    strengths := strengthsOf repo ex
    weaknesses := weaknessesOf repo ex
    html_url := orDefault repo.html_url "No URL"
    updated_at := orDefault repo.updated_at "Unknown"
    topics := repo.topics.getD [] }

/-- The object pushed on `repoDetails` for one repository. -/
def detailOf (repo : RawRepository) : RepoDetail :=
  let ex := extractReadmeMainIdea repo
  { name := repo.name
    description := orDefault repo.description "No description provided"
    language := orDefault repo.language "Unknown"
    html_url := orDefault repo.html_url "No URL"
    updated_at := orDefault repo.updated_at "Unknown"
    topics := repo.topics.getD []
    readme := ex.readme
    mainIdea := ex.mainIdea }

/-- The variables the loop updates. -/
structure LoopState where
  repoDetails : List RepoDetail
  languages : List (String × LangValue)
  recentRepos : Nat
  deterministicReview : List ReviewRecord
deriving DecidableEq, Repr

/-- The variables before the loop. -/
def initState : LoopState :=
  { repoDetails := [], languages := [], recentRepos := 0, deterministicReview := [] }

/-- One iteration of `for (const item of items)`. -/
def loopStep (engine : String → Option Int) (cutoffDate : Option Int) (st : LoopState)
    (item : Item) : LoopState :=
  let repo := item.json
  let languages :=
    match repo.language with
    | some l => if l != "" then trackLanguage st.languages l else st.languages
    | none => st.languages
  let updatedAt := newDate engine repo.updated_at
  let recentRepos := if dateGt updatedAt cutoffDate then st.recentRepos + 1 else st.recentRepos
  { repoDetails := st.repoDetails ++ [detailOf repo]
    languages := languages
    recentRepos := recentRepos
    deterministicReview := st.deterministicReview ++ [reviewOf repo] }

/-! ## The result -/

/-- The template literal mapped over `repoDetails`. -/
def renderBlock (repo : RepoDetail) : String :=
  "\nRepo Name: " ++ repo.name ++
  "\nDescription: " ++ repo.description ++
  "\nLanguage: " ++ repo.language ++
  "\nURL: " ++ repo.html_url ++
  "\nUpdated At: " ++ repo.updated_at ++
  "\nTopics: " ++ (if repo.topics.length > 0 then join ", " repo.topics else "None") ++
  "\nREADME Main Idea: " ++ repo.mainIdea ++ "\n"

/-- The object returned by the script. -/
structure AggregateSummary where
  github_username : String
  totalRepos : Nat
  recentRepos : Nat
  languages : List (String × LangValue)
  profileStrength : String
  deterministicReview : List ReviewRecord
  repoDetailsText : String
deriving DecidableEq, Repr

/-- The expression `items[0]?.json?.owner?.login || "Unknown"`. -/
def githubUsername (items : List Item) : String :=
  orDefault ((items.head?.bind (fun item => item.json.owner)).bind (fun o => o.login)) "Unknown"

/-- The classification computed after the loop. -/
def profileStrengthOf (total recent distinctLanguages : Nat) : String :=
  let s0 := "Weak"
  let s1 := if total ≥ 10 ∧ recent ≥ 3 then "Good" else s0
  if total ≥ 20 ∧ distinctLanguages ≥ 3 then "Strong" else s1

/-- The whole script, as a function of `items` (and of the engine behind
`Date.parse`). -/
def analyze (engine : String → Option Int) (items : List Item) : AggregateSummary :=
  let cutoffDate := newDate engine (some "2025-10-01")
  let st := items.foldl (loopStep engine cutoffDate) initState
  { github_username := githubUsername items
    totalRepos := items.length
    recentRepos := st.recentRepos
    languages := st.languages
    profileStrength :=
      profileStrengthOf items.length st.recentRepos (st.languages.map Prod.fst).length
    deterministicReview := st.deterministicReview
    repoDetailsText := join "\n\n" (st.repoDetails.map renderBlock) }

/-! ## Inputs used by the examples -/

/-- A repository payload with a name and no other property. -/
def bareRepo (name : String) : RawRepository :=
  { name := name, description := none, language := none, updated_at := none,
    html_url := none, topics := none, files := none, owner := none }

/-- The README text of the example of the specification. -/
def sampleReadme : String :=
  "# Title\n\nLine one.\nLine two.\nLine three.\nLine four."

/-- A payload whose files mapping holds two keys that both lower-case to
`readme.md`, with different contents. -/
def twoReadmes : RawRepository :=
  { bareRepo "two" with
    files := some [("README.md", ⟨some "first"⟩), ("readme.md", ⟨some "second"⟩)] }

/-- The lines of the main idea as the specification words them: the first three
lines of `c` that are non-empty after trimming, each trimmed. -/
def specMainIdeaLines (c : String) : List String :=
  (((split c).filter (fun l => trim l != "")).take 3).map trim

/-- The cutoff of the specification, 2025-10-01T00:00:00 UTC, in milliseconds
since 1970-01-01T00:00:00 UTC (20362 days of 86400000 ms). -/
def cutoffMillis : Int := 1759276800000

/-- The condition of the specification on `updated_at`: it is present and parses
to an instant strictly later than the cutoff. -/
def updatedAfterCutoff (engine : String → Option Int) (u : Option String) : Bool :=
  match u with
  | none => false
  | some s =>
    match dateParse engine s with
    | none => false
    | some t => decide (cutoffMillis < t)

/-- The text put for `{topics}`, as the specification words it: the topics
joined with the separator `sep`, or `None` when there is none. -/
def specTopicsText (sep : String) (topics : List String) : String :=
  if topics = [] then "None" else join sep topics

/-- The block of one repository, as the specification words it: a line break,
then seven labelled lines, each ended by a line break, filled from the
repository's review record. -/
def specBlock (sep : String) (r : ReviewRecord) : String :=
  "\n" ++
  ("Repo Name: " ++ r.name ++ "\n") ++
  ("Description: " ++ r.description ++ "\n") ++
  ("Language: " ++ r.language ++ "\n") ++
  ("URL: " ++ r.html_url ++ "\n") ++
  ("Updated At: " ++ r.updated_at ++ "\n") ++
  ("Topics: " ++ specTopicsText sep r.topics ++ "\n") ++
  ("README Main Idea: " ++ r.mainIdea ++ "\n")

/-- The flattened text, as the specification words it: the blocks in input
order, two line breaks between consecutive blocks. -/
def specDetailsText (sep : String) (items : List Item) : String :=
  join "\n\n" (items.map (fun it => specBlock sep (reviewOf it.json)))

/-- A payload with two topics. -/
def twoTopics : RawRepository :=
  { bareRepo "tagged" with topics := some ["a", "b"] }

/-- A payload whose README file is found and has an empty content. -/
def emptyReadme : RawRepository :=
  { bareRepo "blank" with files := some [("README.md", FileObj.mk (some ""))] }

/-- The string `s` begins with `p`. -/
def startsWith (p s : String) : Prop := ∃ t, s = p ++ t

/-- The non-empty `language` values of the input, in input order (one per
repository that has one). -/
def languageValues (items : List Item) : List String :=
  items.filterMap (fun it =>
    match it.json.language with
    | some l => if l != "" then some l else none
    | none => none)

/-- The property names that the object `languages` inherits from
`Object.prototype`. -/
def inheritedProps : List String := "__proto__" :: protoFunctionProps

/-- The number held by a value of `languages`, 0 for a string. -/
def countOf : LangValue → Nat
  | LangValue.num n => n
  | LangValue.text => 0

/-- A payload with a name and a language. -/
def langRepo (name language : String) : RawRepository :=
  { bareRepo name with language := some language }

/-- Twenty repositories in three distinct languages, one of the languages being
named `__proto__`. -/
def twentyWithProto : List Item :=
  ⟨langRepo "r1" "__proto__"⟩ :: ⟨langRepo "r2" "Go"⟩ :: ⟨langRepo "r3" "Rust"⟩ ::
    List.replicate 17 ⟨langRepo "rn" "Go"⟩

/-- The classification as the specification words it. -/
def specProfileStrength (total distinctLanguages recent : Nat) : String :=
  if total ≥ 20 ∧ distinctLanguages ≥ 3 then "Strong"
  else if total ≥ 10 ∧ recent ≥ 3 then "Good"
  else "Weak"

/-- A payload whose README file is found but carries no `content`. -/
def readmeWithoutContent : RawRepository :=
  { bareRepo "hollow" with files := some [("readme.md", FileObj.mk none)] }

/-- A payload whose README file holds blank lines only. -/
def blankReadme : RawRepository :=
  { bareRepo "blank lines" with files := some [("README.md", FileObj.mk (some " \n\t\n"))] }

/-- The count a `languages` object holds for a language: 0 for an absent key, the
number for a key that holds a number, none for a key that holds a string. -/
def countAt (languages : List (String × LangValue)) (k : String) : Option Nat :=
  match languages.lookup k with
  | none => some 0
  | some (LangValue.num n) => some n
  | some LangValue.text => none

/-- A payload whose README has a carriage return inside a line. -/
def carriageReturnReadme : RawRepository :=
  { bareRepo "cr" with files := some [("README.md", FileObj.mk (some "a\rb"))] }

/-- The string has no line feed, is not empty, and neither begins nor ends with a
character that `trim` removes. -/
def tidy (s : String) : Prop :=
  '\n' ∉ s.data ∧ s.data.head?.map isTrimChar = some false ∧
    s.data.getLast?.map isTrimChar = some false

/-! # Properties -/

/-! ## The loop as a whole -/

theorem loop_deterministicReview (engine : String → Option Int) (cutoff : Option Int)
    (items : List Item) (st : LoopState) :
    (items.foldl (loopStep engine cutoff) st).deterministicReview =
      st.deterministicReview ++ items.map (fun it => reviewOf it.json) := by
  induction items generalizing st with
  | nil => simp
  | cons it rest ih => simp [ih, loopStep]

theorem loop_repoDetails (engine : String → Option Int) (cutoff : Option Int)
    (items : List Item) (st : LoopState) :
    (items.foldl (loopStep engine cutoff) st).repoDetails =
      st.repoDetails ++ items.map (fun it => detailOf it.json) := by
  induction items generalizing st with
  | nil => simp
  | cons it rest ih => simp [ih, loopStep]

theorem analyze_deterministicReview (engine : String → Option Int) (items : List Item) :
    (analyze engine items).deterministicReview = items.map (fun it => reviewOf it.json) := by
  simp [analyze, loop_deterministicReview, initState]

/-- C1. `totalRepos` is the length of the input, `deterministicReview` has as many
entries, and its `i`-th entry is the record built from the `i`-th input (so it
carries that input's name). -/
theorem analyze_one_record_per_input (engine : String → Option Int) (items : List Item) :
    (analyze engine items).totalRepos = items.length ∧
    (analyze engine items).deterministicReview.length = items.length ∧
    ∀ (i : Nat) (h : i < items.length),
      (analyze engine items).deterministicReview[i]? = some (reviewOf (items.get ⟨i, h⟩).json) ∧
      ((analyze engine items).deterministicReview[i]?).map (fun r => r.name) =
        some (items.get ⟨i, h⟩).json.name := by
  refine ⟨rfl, ?_, ?_⟩
  · simp [analyze_deterministicReview]
  · intro i h
    have h1 : (analyze engine items).deterministicReview[i]? =
        some (reviewOf (items.get ⟨i, h⟩).json) := by
      simp [analyze_deterministicReview, List.getElem?_map, List.getElem?_eq_getElem h]
    refine ⟨h1, ?_⟩
    rw [h1]
    rfl

theorem analyze_one_record_per_input_witness :
    (analyze (fun _ => none) [⟨bareRepo "a"⟩, ⟨bareRepo "b"⟩]).deterministicReview[1]? =
        some (reviewOf (bareRepo "b")) ∧
    ((analyze (fun _ => none) [⟨bareRepo "a"⟩, ⟨bareRepo "b"⟩]).deterministicReview[1]?).map
        (fun r => r.name) = some "b" :=
  (analyze_one_record_per_input (fun _ => none) [⟨bareRepo "a"⟩, ⟨bareRepo "b"⟩]).2.2 1
    (by decide)

/-! ## `extractReadmeMainIdea` -/

theorem isReadmeKey_eq_false_iff (f : String) :
    isReadmeKey f = false ↔ toLowerCase f ≠ "readme.md" := by
  simp [isReadmeKey]

theorem isReadmeKey_eq_true_iff (f : String) :
    isReadmeKey f = true ↔ toLowerCase f = "readme.md" := by
  simp [isReadmeKey]

theorem readmeFileOf_eq_none (files : List (String × FileObj)) :
    readmeFileOf files = none ↔ ∀ e ∈ files, isReadmeKey e.1 = false := by
  simp [readmeFileOf, List.find?_eq_none]

theorem readmeFileOf_cons (k1 : String) (o1 : FileObj) (rest : List (String × FileObj)) :
    readmeFileOf ((k1, o1) :: rest) =
      if isReadmeKey k1 = true then some k1 else readmeFileOf rest := by
  unfold readmeFileOf
  rw [List.map_cons, List.find?_cons]
  cases isReadmeKey k1 <;> rfl

theorem lookup_cons_ne {β : Type} (k k1 : String) (o1 : β) (rest : List (String × β))
    (h : k ≠ k1) : ((k1, o1) :: rest).lookup k = rest.lookup k := by
  have hne : (k == k1) = false := beq_eq_false_iff_ne.mpr h
  rw [List.lookup_cons, hne]

theorem lookup_cons_self {β : Type} (k : String) (o1 : β) (rest : List (String × β)) :
    ((k, o1) :: rest).lookup k = some o1 := by
  rw [List.lookup_cons, beq_self_eq_true]

theorem readmeFileOf_split (pre post : List (String × FileObj)) (k : String) (obj : FileObj)
    (hpre : ∀ e ∈ pre, isReadmeKey e.1 = false) (hk : isReadmeKey k = true) :
    readmeFileOf (pre ++ (k, obj) :: post) = some k ∧
      (pre ++ (k, obj) :: post).lookup k = some obj := by
  induction pre with
  | nil =>
    rw [List.nil_append, readmeFileOf_cons, if_pos hk, lookup_cons_self]
    exact ⟨rfl, rfl⟩
  | cons e rest ih =>
    obtain ⟨k1, o1⟩ := e
    have h1 : isReadmeKey k1 = false := hpre (k1, o1) (List.mem_cons_self _ _)
    have hne : k ≠ k1 := by
      intro h
      rw [h, h1] at hk
      exact Bool.noConfusion hk
    have ih1 := ih (fun e he => hpre e (List.mem_cons_of_mem _ he))
    rw [List.cons_append, readmeFileOf_cons, lookup_cons_ne k k1 o1 _ hne, h1]
    exact ⟨by simpa using ih1.1, ih1.2⟩

theorem readmeFileOf_some (files : List (String × FileObj)) (k : String)
    (h : readmeFileOf files = some k) :
    isReadmeKey k = true ∧ ∃ pre obj post, files = pre ++ (k, obj) :: post ∧
      ∀ e ∈ pre, isReadmeKey e.1 = false := by
  induction files with
  | nil => simp [readmeFileOf] at h
  | cons e rest ih =>
    obtain ⟨k1, o1⟩ := e
    rw [readmeFileOf_cons] at h
    by_cases h1 : isReadmeKey k1 = true
    · rw [if_pos h1] at h
      have hk : k1 = k := Option.some.inj h
      subst hk
      exact ⟨h1, [], o1, rest, rfl, by simp⟩
    · rw [if_neg h1] at h
      have h1f : isReadmeKey k1 = false := by simpa using h1
      obtain ⟨hk, pre, obj, post, hsplit, hpre⟩ := ih h
      refine ⟨hk, (k1, o1) :: pre, obj, post, by simp [hsplit], ?_⟩
      intro e he
      rcases List.mem_cons.mp he with rfl | he
      · exact h1f
      · exact hpre e he

/-- The property read `repo.files[readmeFile]` succeeds for the key that `find`
returned. -/
theorem lookup_readmeFileOf (files : List (String × FileObj)) (k : String)
    (h : readmeFileOf files = some k) : ∃ obj, files.lookup k = some obj := by
  obtain ⟨hk, pre, obj, post, hsplit, hpre⟩ := readmeFileOf_some files k h
  exact ⟨obj, by rw [hsplit]; exact (readmeFileOf_split pre post k obj hpre hk).2⟩

theorem extract_of_split (repo : RawRepository) (pre post : List (String × FileObj))
    (k : String) (obj : FileObj) (hfiles : repo.files = some (pre ++ (k, obj) :: post))
    (hpre : ∀ e ∈ pre, isReadmeKey e.1 = false) (hk : isReadmeKey k = true) :
    extractReadmeMainIdea repo = extractionOf (orDefault obj.content "") := by
  obtain ⟨h1, h2⟩ := readmeFileOf_split pre post k obj hpre hk
  simp only [extractReadmeMainIdea, hfiles, h1, h2]

theorem eq_empty_of_append_eq_empty (a b : String) (h : a ++ b = "") : a = "" := by
  have h1 : (a ++ b).data = [] := by rw [h]
  rw [String.data_append] at h1
  exact String.ext (List.append_eq_nil.mp h1).1

theorem join_ne_empty (sep a : String) (rest : List String) (ha : a ≠ "") :
    join sep (a :: rest) ≠ "" := by
  cases rest with
  | nil => simpa [join] using ha
  | cons b rest =>
    intro h
    simp only [join] at h
    exact ha (eq_empty_of_append_eq_empty _ _ (eq_empty_of_append_eq_empty _ _ h))

theorem take_readmeLines (c : String) : (readmeLines c).take 3 = specMainIdeaLines c := by
  simp only [readmeLines, specMainIdeaLines, List.filter_map, List.map_take]
  rfl

theorem specMainIdeaLines_ne_empty (c : String) : ∀ l ∈ specMainIdeaLines c, l ≠ "" := by
  intro l hl
  rw [← take_readmeLines] at hl
  have := List.mem_of_mem_take hl
  simp only [readmeLines, List.mem_filter] at this
  simpa using this.2

theorem specMainIdeaLines_ne_nil (c : String) (h : ∃ l ∈ split c, trim l ≠ "") :
    specMainIdeaLines c ≠ [] := by
  obtain ⟨l, hl, hne⟩ := h
  have hmem : l ∈ (split c).filter (fun l => trim l != "") := by
    simp [List.mem_filter, hl, hne]
  intro hnil
  simp only [specMainIdeaLines, List.map_eq_nil_iff] at hnil
  cases hf : (split c).filter (fun l => trim l != "") with
  | nil => rw [hf] at hmem; simp at hmem
  | cons a rest => rw [hf] at hnil; simp at hnil

theorem extractionOf_mainIdea (c : String) (h : ∃ l ∈ split c, trim l ≠ "") :
    (extractionOf c).mainIdea = join " " (specMainIdeaLines c) := by
  have hne := specMainIdeaLines_ne_nil c h
  have hall := specMainIdeaLines_ne_empty c
  simp only [extractionOf, take_readmeLines]
  cases hs : specMainIdeaLines c with
  | nil => exact absurd hs hne
  | cons a rest =>
    have ha : a ≠ "" := hall a (by rw [hs]; exact List.mem_cons_self _ _)
    have hj := join_ne_empty " " a rest ha
    simp [orDefault, hj]

theorem orDefault_some_empty (c : String) : orDefault (some c) "" = c := by
  unfold orDefault
  split
  · rename_i h; cases h
  · rename_i s h
    cases h
    split
    · rename_i h; exact h.symm
    · rfl

/-- C2, as the code satisfies it. When the first key of the files mapping (in
iteration order) that lower-cases to `readme.md` has content `c`, the returned
`readme` is `c` unchanged and, when some line of `c` is non-empty after trimming,
`mainIdea` is the first three such lines, trimmed and joined with one space; with
the README of the example the main idea is `# Title Line one. Line two.`, and
each of the three spellings of the key is a README key. -/
theorem extract_first_readme_key (repo : RawRepository) (pre post : List (String × FileObj))
    (k c : String) (hfiles : repo.files = some (pre ++ (k, FileObj.mk (some c)) :: post))
    (hpre : ∀ e ∈ pre, toLowerCase e.1 ≠ "readme.md") (hk : toLowerCase k = "readme.md") :
    (extractReadmeMainIdea repo).readme = c ∧
    ((∃ l ∈ split c, trim l ≠ "") →
      (extractReadmeMainIdea repo).mainIdea = join " " (specMainIdeaLines c)) ∧
    (c = sampleReadme →
      (extractReadmeMainIdea repo).mainIdea = "# Title Line one. Line two.") ∧
    (∀ key ∈ ["README.md", "readme.md", "ReadMe.MD"], toLowerCase key = "readme.md") := by
  have hex := extract_of_split repo pre post k (FileObj.mk (some c)) hfiles
    (fun e he => (isReadmeKey_eq_false_iff _).mpr (hpre e he))
    ((isReadmeKey_eq_true_iff _).mpr hk)
  rw [hex, orDefault_some_empty]
  refine ⟨rfl, extractionOf_mainIdea c, ?_, by decide⟩
  intro hc
  subst hc
  decide

theorem extract_first_readme_key_witness :
    (extractReadmeMainIdea { bareRepo "w" with
        files := some [("LICENSE", FileObj.mk (some "MIT")),
          ("ReadMe.MD", FileObj.mk (some sampleReadme)),
          ("readme.md", FileObj.mk (some "other"))] }).readme = sampleReadme ∧
    (extractReadmeMainIdea { bareRepo "w" with
        files := some [("LICENSE", FileObj.mk (some "MIT")),
          ("ReadMe.MD", FileObj.mk (some sampleReadme)),
          ("readme.md", FileObj.mk (some "other"))] }).mainIdea =
      "# Title Line one. Line two." :=
  have h := extract_first_readme_key
    { bareRepo "w" with
        files := some [("LICENSE", FileObj.mk (some "MIT")),
          ("ReadMe.MD", FileObj.mk (some sampleReadme)),
          ("readme.md", FileObj.mk (some "other"))] }
    [("LICENSE", FileObj.mk (some "MIT"))] [("readme.md", FileObj.mk (some "other"))]
    "ReadMe.MD" sampleReadme rfl (by decide) (by decide)
  ⟨h.1, h.2.2.1 rfl⟩

/-- C2 as worded fails: the files mapping of `twoReadmes` has the key `readme.md`
with content `second`, yet the returned `readme` and `mainIdea` are those of the
earlier key `README.md`. -/
theorem extract_later_readme_key_not_used :
    ("readme.md", FileObj.mk (some "second")) ∈ twoReadmes.files.getD [] ∧
    toLowerCase "readme.md" = "readme.md" ∧
    "second" ∈ split "second" ∧ trim "second" ≠ "" ∧
    (extractReadmeMainIdea twoReadmes).readme = "first" ∧
    (extractReadmeMainIdea twoReadmes).readme ≠ "second" ∧
    (extractReadmeMainIdea twoReadmes).mainIdea ≠ join " " (specMainIdeaLines "second") := by
  refine ⟨by decide, by decide, by decide, by decide, by decide, by decide, by decide⟩

/-- C3. A repository without a files mapping, or whose files mapping (possibly
empty) has no key that lower-cases to `readme.md`, gets exactly the sentinel
pair. -/
theorem extract_without_readme (repo : RawRepository)
    (h : repo.files = none ∨
      ∃ files, repo.files = some files ∧ ∀ e ∈ files, toLowerCase e.1 ≠ "readme.md") :
    (extractReadmeMainIdea repo).readme = "No README content" ∧
    (extractReadmeMainIdea repo).mainIdea = "No main idea available" := by
  rcases h with h | ⟨files, hf, hnone⟩
  · simp only [extractReadmeMainIdea, h]
    exact ⟨rfl, rfl⟩
  · have hfind : readmeFileOf files = none :=
      (readmeFileOf_eq_none files).mpr
        (fun e he => (isReadmeKey_eq_false_iff _).mpr (hnone e he))
    simp only [extractReadmeMainIdea, hf, hfind]
    exact ⟨rfl, rfl⟩

theorem extract_without_readme_witness :
    (extractReadmeMainIdea { bareRepo "w" with
        files := some [("index.js", FileObj.mk (some "let x = 1"))] }).readme =
      "No README content" ∧
    (extractReadmeMainIdea { bareRepo "w" with
        files := some [("index.js", FileObj.mk (some "let x = 1"))] }).mainIdea =
      "No main idea available" :=
  extract_without_readme
    { bareRepo "w" with files := some [("index.js", FileObj.mk (some "let x = 1"))] }
    (Or.inr ⟨[("index.js", FileObj.mk (some "let x = 1"))], rfl, by decide⟩)

/-- C4. The README is the first key, in the iteration order of the files mapping,
that lower-cases to `readme.md`: whatever follows it (other spellings included),
the result is computed from the content of that first key, and the key selected
always lower-cases to `readme.md`. -/
theorem readme_is_first_matching_key (repo : RawRepository) (files : List (String × FileObj))
    (hf : repo.files = some files) :
    (∀ pre k obj post, files = pre ++ (k, obj) :: post →
      (∀ e ∈ pre, toLowerCase e.1 ≠ "readme.md") → toLowerCase k = "readme.md" →
        readmeFileOf files = some k ∧
        extractReadmeMainIdea repo = extractionOf (orDefault obj.content "")) ∧
    (∀ k, readmeFileOf files = some k → toLowerCase k = "readme.md") := by
  refine ⟨?_, ?_⟩
  · intro pre k obj post hsplit hpre hk
    have hpre1 : ∀ e ∈ pre, isReadmeKey e.1 = false :=
      fun e he => (isReadmeKey_eq_false_iff _).mpr (hpre e he)
    have hk1 : isReadmeKey k = true := (isReadmeKey_eq_true_iff _).mpr hk
    refine ⟨?_, ?_⟩
    · rw [hsplit]
      exact (readmeFileOf_split pre post k obj hpre1 hk1).1
    · exact extract_of_split repo pre post k obj (by rw [hf, hsplit]) hpre1 hk1
  · intro k hk
    exact (isReadmeKey_eq_true_iff _).mp (readmeFileOf_some files k hk).1

theorem readme_is_first_matching_key_witness :
    readmeFileOf [("a.txt", FileObj.mk (some "x")), ("README.md", FileObj.mk (some "first")),
        ("readme.md", FileObj.mk (some "second"))] = some "README.md" ∧
    extractReadmeMainIdea { bareRepo "w" with
        files := some [("a.txt", FileObj.mk (some "x")),
          ("README.md", FileObj.mk (some "first")),
          ("readme.md", FileObj.mk (some "second"))] } =
      { readme := "first", mainIdea := "first" } :=
  (readme_is_first_matching_key
    { bareRepo "w" with
        files := some [("a.txt", FileObj.mk (some "x")),
          ("README.md", FileObj.mk (some "first")),
          ("readme.md", FileObj.mk (some "second"))] }
    [("a.txt", FileObj.mk (some "x")), ("README.md", FileObj.mk (some "first")),
      ("readme.md", FileObj.mk (some "second"))] rfl).1
    [("a.txt", FileObj.mk (some "x"))] "README.md" (FileObj.mk (some "first"))
    [("readme.md", FileObj.mk (some "second"))] rfl (by decide) (by decide)

/-! ## Recency -/

theorem parseIsoUtc_cutoff : parseIsoUtc "2025-10-01".data = some 1759276800000 := by decide

theorem parseIsoUtc_cutoff_instant :
    parseIsoUtc "2025-10-01T00:00:00Z".data = some 1759276800000 := by decide

theorem parseIsoUtc_november : parseIsoUtc "2025-11-01".data = some 1761955200000 := by decide

theorem parseIsoUtc_january : parseIsoUtc "2025-01-01".data = some 1735689600000 := by decide

theorem newDate_cutoff (engine : String → Option Int) :
    newDate engine (some "2025-10-01") = some cutoffMillis := by
  simp only [newDate, dateParse, parseIsoUtc_cutoff]
  rfl

theorem dateGt_cutoff (engine : String → Option Int) (u : Option String) :
    dateGt (newDate engine u) (newDate engine (some "2025-10-01")) =
      updatedAfterCutoff engine u := by
  rw [newDate_cutoff]
  cases u with
  | none => rfl
  | some s =>
    simp only [newDate, updatedAfterCutoff]
    cases dateParse engine s <;> rfl

theorem loop_recentRepos (engine : String → Option Int) (cutoff : Option Int)
    (items : List Item) (st : LoopState) :
    (items.foldl (loopStep engine cutoff) st).recentRepos =
      st.recentRepos +
        items.countP (fun it => dateGt (newDate engine it.json.updated_at) cutoff) := by
  induction items generalizing st with
  | nil => simp
  | cons it rest ih =>
    rw [List.foldl_cons, ih, List.countP_cons]
    simp only [loopStep]
    split <;> omega

theorem analyze_recentRepos (engine : String → Option Int) (items : List Item) :
    (analyze engine items).recentRepos =
      items.countP (fun it => updatedAfterCutoff engine it.json.updated_at) := by
  simp only [analyze, loop_recentRepos, initState, dateGt_cutoff]
  omega

theorem analyze_recentRepos_append (engine : String → Option Int) (items : List Item)
    (it : Item) :
    (analyze engine (items ++ [it])).recentRepos =
      (analyze engine items).recentRepos +
        (if updatedAfterCutoff engine it.json.updated_at = true then 1 else 0) := by
  rw [analyze_recentRepos, analyze_recentRepos, List.countP_append, List.countP_cons]
  simp

/-- C6. `recentRepos` is the number of repositories whose `updated_at` parses to an
instant strictly later than 2025-10-01T00:00:00 UTC. A repository updated exactly
at the cutoff, one dated `2025-01-01`, one without `updated_at` and one whose
`updated_at` does not parse leave the count as it is; one dated `2025-11-01`
adds 1. The script is a total function, so all of these return a result. -/
theorem recentRepos_counts_updates_after_cutoff (engine : String → Option Int)
    (items : List Item) :
    (analyze engine items).recentRepos =
      items.countP (fun it => updatedAfterCutoff engine it.json.updated_at) ∧
    cutoffMillis = utcMillis 2025 10 1 0 0 0 ∧
    (∀ it : Item, it.json.updated_at = some "2025-10-01T00:00:00Z" →
      (analyze engine (items ++ [it])).recentRepos = (analyze engine items).recentRepos) ∧
    (∀ it : Item, it.json.updated_at = some "2025-11-01" →
      (analyze engine (items ++ [it])).recentRepos =
        (analyze engine items).recentRepos + 1) ∧
    (∀ it : Item, it.json.updated_at = some "2025-01-01" →
      (analyze engine (items ++ [it])).recentRepos = (analyze engine items).recentRepos) ∧
    (∀ it : Item, it.json.updated_at = none →
      (analyze engine (items ++ [it])).recentRepos = (analyze engine items).recentRepos) ∧
    (∀ (it : Item) (s : String), it.json.updated_at = some s → dateParse engine s = none →
      (analyze engine (items ++ [it])).recentRepos = (analyze engine items).recentRepos) := by
  refine ⟨analyze_recentRepos engine items, by decide, ?_, ?_, ?_, ?_, ?_⟩
  · intro it h
    rw [analyze_recentRepos_append, h]
    simp only [updatedAfterCutoff, dateParse, parseIsoUtc_cutoff_instant]
    rfl
  · intro it h
    rw [analyze_recentRepos_append, h]
    simp only [updatedAfterCutoff, dateParse, parseIsoUtc_november]
    rfl
  · intro it h
    rw [analyze_recentRepos_append, h]
    simp only [updatedAfterCutoff, dateParse, parseIsoUtc_january]
    rfl
  · intro it h
    rw [analyze_recentRepos_append, h]
    rfl
  · intro it s h hs
    rw [analyze_recentRepos_append, h]
    simp only [updatedAfterCutoff, hs]
    rfl

theorem recentRepos_counts_updates_after_cutoff_witness :
    (analyze (fun _ => none)
      ([⟨{ bareRepo "old" with updated_at := some "2025-01-01" }⟩] ++
        [⟨{ bareRepo "new" with updated_at := some "2025-11-01" }⟩])).recentRepos =
      (analyze (fun _ => none)
        [⟨{ bareRepo "old" with updated_at := some "2025-01-01" }⟩]).recentRepos + 1 ∧
    (analyze (fun _ => none)
      ([⟨{ bareRepo "old" with updated_at := some "2025-01-01" }⟩] ++
        [⟨{ bareRepo "odd" with updated_at := some "last week" }⟩])).recentRepos =
      (analyze (fun _ => none)
        [⟨{ bareRepo "old" with updated_at := some "2025-01-01" }⟩]).recentRepos :=
  have h := recentRepos_counts_updates_after_cutoff (fun _ => none)
    [⟨{ bareRepo "old" with updated_at := some "2025-01-01" }⟩]
  ⟨h.2.2.2.1 ⟨{ bareRepo "new" with updated_at := some "2025-11-01" }⟩ rfl,
   h.2.2.2.2.2.2 ⟨{ bareRepo "odd" with updated_at := some "last week" }⟩ "last week" rfl
     (by decide)⟩

/-! ## Flattened text -/

theorem analyze_repoDetailsText (engine : String → Option Int) (items : List Item) :
    (analyze engine items).repoDetailsText =
      join "\n\n" (items.map (fun it => renderBlock (detailOf it.json))) := by
  simp only [analyze, loop_repoDetails, initState, List.nil_append, List.map_map]
  rfl

theorem topics_text_eq (topics : List String) :
    (if topics.length > 0 then join ", " topics else "None") = specTopicsText ", " topics := by
  cases topics with
  | nil => rfl
  | cons a rest => simp [specTopicsText]

theorem renderBlock_detailOf (repo : RawRepository) :
    renderBlock (detailOf repo) = specBlock ", " (reviewOf repo) := by
  have e1 : "\nRepo Name: " = "\n" ++ "Repo Name: " := by decide
  have e2 : "\nDescription: " = "\n" ++ "Description: " := by decide
  have e3 : "\nLanguage: " = "\n" ++ "Language: " := by decide
  have e4 : "\nURL: " = "\n" ++ "URL: " := by decide
  have e5 : "\nUpdated At: " = "\n" ++ "Updated At: " := by decide
  have e6 : "\nTopics: " = "\n" ++ "Topics: " := by decide
  have e7 : "\nREADME Main Idea: " = "\n" ++ "README Main Idea: " := by decide
  simp only [renderBlock, specBlock, detailOf, reviewOf, topics_text_eq]
  rw [e1, e2, e3, e4, e5, e6, e7]
  simp only [String.append_assoc]

theorem analyze_repoDetailsText_spec (engine : String → Option Int) (items : List Item) :
    (analyze engine items).repoDetailsText = specDetailsText ", " items := by
  have h : items.map (fun it => renderBlock (detailOf it.json)) =
      items.map (fun it => specBlock ", " (reviewOf it.json)) :=
    List.map_congr_left (fun it _ => renderBlock_detailOf it.json)
  rw [analyze_repoDetailsText, specDetailsText, h]

/-- C8, as the code satisfies it. `repoDetailsText` is the blocks of the
repositories in input order, joined with two line breaks; a block is a line break
followed by the seven labelled lines filled from the repository's review record,
the topics being joined with a comma followed by a space, or `None` when the
topics are empty or absent. For a single repository with empty or absent topics
the text contains `Topics: None`. -/
theorem repoDetailsText_blocks (engine : String → Option Int) (items : List Item) :
    (analyze engine items).repoDetailsText = specDetailsText ", " items ∧
    (∀ it : Item, (it.json.topics = none ∨ it.json.topics = some []) →
      ∃ pre post, (analyze engine [it]).repoDetailsText = pre ++ "Topics: None" ++ post) := by
  refine ⟨analyze_repoDetailsText_spec engine items, ?_⟩
  intro it h
  have ht : (reviewOf it.json).topics = [] := by
    rcases h with h | h <;> simp [reviewOf, h]
  have e : "Topics: None" = "Topics: " ++ "None" := by decide
  refine ⟨"\n" ++
      ("Repo Name: " ++ (reviewOf it.json).name ++ "\n") ++
      ("Description: " ++ (reviewOf it.json).description ++ "\n") ++
      ("Language: " ++ (reviewOf it.json).language ++ "\n") ++
      ("URL: " ++ (reviewOf it.json).html_url ++ "\n") ++
      ("Updated At: " ++ (reviewOf it.json).updated_at ++ "\n"),
    "\n" ++ ("README Main Idea: " ++ (reviewOf it.json).mainIdea ++ "\n"), ?_⟩
  rw [analyze_repoDetailsText_spec, e]
  simp only [specDetailsText, List.map_cons, List.map_nil, join, specBlock, ht, specTopicsText,
    if_true, String.append_assoc]

theorem repoDetailsText_blocks_witness :
    ∃ pre post, (analyze (fun _ => none) [⟨{ bareRepo "solo" with topics := some [] }⟩]).repoDetailsText =
      pre ++ "Topics: None" ++ post :=
  (repoDetailsText_blocks (fun _ => none) []).2
    ⟨{ bareRepo "solo" with topics := some [] }⟩ (Or.inr rfl)

/-- C8 as worded fails: with the topics `a` and `b` the text has `Topics: a, b`,
which is not the topics joined with a comma alone. -/
theorem repoDetailsText_topics_not_comma_alone :
    (analyze (fun _ => none) [⟨twoTopics⟩]).repoDetailsText ≠
      specDetailsText "," [⟨twoTopics⟩] ∧
    (analyze (fun _ => none) [⟨twoTopics⟩]).repoDetailsText =
      "\nRepo Name: tagged\nDescription: No description provided\nLanguage: Unknown\n" ++
      "URL: No URL\nUpdated At: Unknown\nTopics: a, b\n" ++
      "README Main Idea: No main idea available\n" := by
  refine ⟨by decide, by decide⟩

/-! ## Strengths and weaknesses -/

theorem uses_ne_hasReadme (l : String) : "Uses " ++ l ≠ "Has README" := by
  intro h
  have h1 := congrArg String.data h
  have e1 : "Uses ".data = ['U', 's', 'e', 's', ' '] := by decide
  have e2 : "Has README".data = ['H', 'a', 's', ' ', 'R', 'E', 'A', 'D', 'M', 'E'] := by decide
  rw [String.data_append, e1, e2] at h1
  simp at h1

theorem hasDescription_ne_hasReadme (t : String) : "Has description: \"" ++ t ≠ "Has README" := by
  intro h
  have h1 := congrArg String.data h
  have e1 : "Has description: \"".data =
      ['H', 'a', 's', ' ', 'd', 'e', 's', 'c', 'r', 'i', 'p', 't', 'i', 'o', 'n', ':', ' ', '"'] := by
    decide
  have e2 : "Has README".data = ['H', 'a', 's', ' ', 'R', 'E', 'A', 'D', 'M', 'E'] := by decide
  rw [String.data_append, e1, e2] at h1
  simp at h1

theorem mainIdea_ne_hasReadme (m : String) : "Main idea: " ++ m ≠ "Has README" := by
  intro h
  have h1 := congrArg String.data h
  have e1 : "Main idea: ".data =
      ['M', 'a', 'i', 'n', ' ', 'i', 'd', 'e', 'a', ':', ' '] := by decide
  have e2 : "Has README".data = ['H', 'a', 's', ' ', 'R', 'E', 'A', 'D', 'M', 'E'] := by decide
  rw [String.data_append, e1, e2] at h1
  simp at h1

theorem hasReadme_mem_strengthsOf (repo : RawRepository) (ex : ReadmeExtraction) :
    "Has README" ∈ strengthsOf repo ex ↔ (ex.readme ≠ "" ∧ ex.readme ≠ "No README content") := by
  have hA : "Has README" ∉ (match repo.language with
      | some l => if (l != "" && l != "Unknown") = true then ["Uses " ++ l] else []
      | none => []) := by
    cases repo.language with
    | none => simp
    | some l =>
      by_cases hc : (l != "" && l != "Unknown") = true
      · simp only [hc, if_true, List.mem_singleton]
        exact fun h => uses_ne_hasReadme l h.symm
      · simp [hc]
  have hB : "Has README" ∉ (match repo.description with
      | some d =>
        if (d != "" && d != "No description provided") = true then
          ["Has description: \"" ++ d ++ "\""]
        else []
      | none => []) := by
    cases repo.description with
    | none => simp
    | some d =>
      by_cases hc : (d != "" && d != "No description provided") = true
      · simp only [hc, if_true, List.mem_singleton]
        intro h
        rw [String.append_assoc] at h
        exact hasDescription_ne_hasReadme _ h.symm
      · simp [hc]
  have hD : "Has README" ∉
      (if (ex.mainIdea != "" && ex.mainIdea != "No main idea available") = true then
        ["Main idea: " ++ ex.mainIdea] else []) := by
    by_cases hc : (ex.mainIdea != "" && ex.mainIdea != "No main idea available") = true
    · simp only [hc, if_true, List.mem_singleton]
      exact fun h => mainIdea_ne_hasReadme _ h.symm
    · simp [hc]
  unfold strengthsOf
  simp only [List.mem_append, hA, hB, hD, false_or, or_false]
  by_cases hc : (ex.readme != "" && ex.readme != "No README content") = true
  · simp only [hc, if_true, List.mem_singleton, true_iff]
    simpa using hc
  · simp only [hc]
    simp only [Bool.false_eq_true, if_false, List.not_mem_nil, false_iff]
    simpa using hc

/-- C9, as the code satisfies it. `strengths` contains `Has README` exactly when
the readme returned by `extractReadmeMainIdea` is neither empty nor the sentinel
`No README content`; in particular it does whenever the README file found has a
content that is neither empty nor that sentinel text. -/
theorem hasReadme_strength_iff (repo : RawRepository) :
    ("Has README" ∈ (reviewOf repo).strengths ↔
      ((extractReadmeMainIdea repo).readme ≠ "" ∧
        (extractReadmeMainIdea repo).readme ≠ "No README content")) ∧
    (∀ pre k c post, repo.files = some (pre ++ (k, FileObj.mk (some c)) :: post) →
      (∀ e ∈ pre, toLowerCase e.1 ≠ "readme.md") → toLowerCase k = "readme.md" →
      c ≠ "" → c ≠ "No README content" → "Has README" ∈ (reviewOf repo).strengths) := by
  have h1 : "Has README" ∈ (reviewOf repo).strengths ↔
      ((extractReadmeMainIdea repo).readme ≠ "" ∧
        (extractReadmeMainIdea repo).readme ≠ "No README content") :=
    hasReadme_mem_strengthsOf repo (extractReadmeMainIdea repo)
  refine ⟨h1, ?_⟩
  intro pre k c post hfiles hpre hk hc1 hc2
  have hex := extract_of_split repo pre post k (FileObj.mk (some c)) hfiles
    (fun e he => (isReadmeKey_eq_false_iff _).mpr (hpre e he))
    ((isReadmeKey_eq_true_iff _).mpr hk)
  rw [orDefault_some_empty] at hex
  rw [h1, hex]
  exact ⟨hc1, hc2⟩

theorem hasReadme_strength_iff_witness :
    "Has README" ∈ (reviewOf { bareRepo "doc" with
      files := some [("Readme.md", FileObj.mk (some "hello"))] }).strengths :=
  (hasReadme_strength_iff { bareRepo "doc" with
      files := some [("Readme.md", FileObj.mk (some "hello"))] }).2
    [] "Readme.md" "hello" [] rfl (by decide) (by decide) (by decide) (by decide)

/-- C9 as worded fails: the README file of `emptyReadme` is found and the readme
returned is the empty string, which is not the sentinel, yet `strengths` has no
`Has README` (and `weaknesses` has `Missing README`). -/
theorem hasReadme_absent_for_empty_readme :
    readmeFileOf (emptyReadme.files.getD []) = some "README.md" ∧
    (extractReadmeMainIdea emptyReadme).readme = "" ∧
    (extractReadmeMainIdea emptyReadme).readme ≠ "No README content" ∧
    "Has README" ∉ (reviewOf emptyReadme).strengths ∧
    "Missing README" ∈ (reviewOf emptyReadme).weaknesses := by
  refine ⟨by decide, by decide, by decide, by decide, by decide⟩

theorem data_of_startsWith_hasDescription (s : String)
    (h : startsWith "Has description: " s) :
    ∃ l, s.data = 'H' :: 'a' :: 's' :: ' ' :: 'd' :: l := by
  obtain ⟨t, ht⟩ := h
  have e1 : "Has description: ".data =
      ['H', 'a', 's', ' ', 'd', 'e', 's', 'c', 'r', 'i', 'p', 't', 'i', 'o', 'n', ':', ' '] := by
    decide
  refine ⟨['e', 's', 'c', 'r', 'i', 'p', 't', 'i', 'o', 'n', ':', ' '] ++ t.data, ?_⟩
  rw [ht, String.data_append, e1]
  rfl

theorem strengthsOf_without_description (repo : RawRepository) (ex : ReadmeExtraction)
    (h : repo.description = none ∨ repo.description = some "" ∨
      repo.description = some "No description provided") :
    ∀ s ∈ strengthsOf repo ex, ¬ startsWith "Has description: " s := by
  intro s hs hsw
  obtain ⟨l, hl⟩ := data_of_startsWith_hasDescription s hsw
  have hB : (match repo.description with
      | some d =>
        if (d != "" && d != "No description provided") = true then
          ["Has description: \"" ++ d ++ "\""]
        else []
      | none => []) = [] := by
    rcases h with h | h | h <;> rw [h] <;> rfl
  unfold strengthsOf at hs
  rw [hB] at hs
  simp only [List.mem_append, List.not_mem_nil, or_false] at hs
  rcases hs with (hs | hs) | hs
  · cases hlang : repo.language with
    | none => rw [hlang] at hs; simp at hs
    | some lang =>
      rw [hlang] at hs
      by_cases hc : (lang != "" && lang != "Unknown") = true
      · simp only [hc, if_true, List.mem_singleton] at hs
        have e1 : "Uses ".data = ['U', 's', 'e', 's', ' '] := by decide
        rw [hs, String.data_append, e1] at hl
        simp at hl
      · simp [hc] at hs
  · by_cases hc : (ex.readme != "" && ex.readme != "No README content") = true
    · simp only [hc, if_true, List.mem_singleton] at hs
      have e2 : "Has README".data = ['H', 'a', 's', ' ', 'R', 'E', 'A', 'D', 'M', 'E'] := by
        decide
      rw [hs, e2] at hl
      simp at hl
    · simp [hc] at hs
  · by_cases hc : (ex.mainIdea != "" && ex.mainIdea != "No main idea available") = true
    · simp only [hc, if_true, List.mem_singleton] at hs
      have e1 : "Main idea: ".data =
          ['M', 'a', 'i', 'n', ' ', 'i', 'd', 'e', 'a', ':', ' '] := by decide
      rw [hs, String.data_append, e1] at hl
      simp at hl
    · simp [hc] at hs

theorem missingDescription_mem_weaknessesOf (repo : RawRepository) (ex : ReadmeExtraction) :
    "Missing description" ∈ weaknessesOf repo ex ↔
      (repo.description = none ∨ repo.description = some "" ∨
        repo.description = some "No description provided") := by
  have hW : "Missing description" ∉
      (if (ex.readme == "" || ex.readme == "No README content") = true then
        ["Missing README"] else []) := by
    by_cases hc : (ex.readme == "" || ex.readme == "No README content") = true
    · simp only [hc, if_true, List.mem_singleton]
      decide
    · simp [hc]
  unfold weaknessesOf
  simp only [List.mem_append, hW, or_false]
  cases hd : repo.description with
  | none => simp [truthy]
  | some d =>
    by_cases h1 : d = ""
    · simp [truthy, h1]
    · by_cases h2 : d = "No description provided"
      · simp [truthy, h2]
      · simp [truthy, h1, h2]

theorem hasDescription_mem_strengthsOf (repo : RawRepository) (ex : ReadmeExtraction)
    (d : String) (hd : repo.description = some d) (h1 : d ≠ "")
    (h2 : d ≠ "No description provided") :
    ("Has description: \"" ++ d ++ "\"") ∈ strengthsOf repo ex := by
  have hc : (d != "" && d != "No description provided") = true := by simp [h1, h2]
  unfold strengthsOf
  rw [hd]
  simp only [hc, if_true, List.mem_append, List.mem_singleton, true_or, or_true]

/-- C10. The description checks look at the value after defaulting. When the
description is absent, empty or the text `No description provided`, `weaknesses`
contains `Missing description` and no entry of `strengths` begins with
`Has description: `; otherwise `strengths` contains the entry quoting the
description and `weaknesses` has no `Missing description`. So a repository without
description and the same repository with the description `No description provided`
get the same review record. -/
theorem description_checks_use_defaulted_value (repo : RawRepository) :
    ((repo.description = none ∨ repo.description = some "" ∨
        repo.description = some "No description provided") →
      "Missing description" ∈ (reviewOf repo).weaknesses ∧
      ∀ s ∈ (reviewOf repo).strengths, ¬ startsWith "Has description: " s) ∧
    (∀ d, repo.description = some d → d ≠ "" → d ≠ "No description provided" →
      ("Has description: \"" ++ d ++ "\"") ∈ (reviewOf repo).strengths ∧
      "Missing description" ∉ (reviewOf repo).weaknesses) ∧
    reviewOf { repo with description := none } =
      reviewOf { repo with description := some "No description provided" } := by
  refine ⟨?_, ?_, ?_⟩
  · intro h
    exact ⟨(missingDescription_mem_weaknessesOf repo _).mpr h,
      strengthsOf_without_description repo _ h⟩
  · intro d hd h1 h2
    refine ⟨hasDescription_mem_strengthsOf repo _ d hd h1 h2, ?_⟩
    intro hmem
    have := (missingDescription_mem_weaknessesOf repo (extractReadmeMainIdea repo)).mp hmem
    rw [hd] at this
    rcases this with h | h | h
    · cases h
    · exact h1 (Option.some.inj h)
    · exact h2 (Option.some.inj h)
  · rfl

theorem description_checks_use_defaulted_value_witness :
    ("Missing description" ∈ (reviewOf (bareRepo "plain")).weaknesses ∧
      ∀ s ∈ (reviewOf (bareRepo "plain")).strengths, ¬ startsWith "Has description: " s) ∧
    (("Has description: \"" ++ "A tool" ++ "\"") ∈
        (reviewOf { bareRepo "plain" with description := some "A tool" }).strengths ∧
      "Missing description" ∉
        (reviewOf { bareRepo "plain" with description := some "A tool" }).weaknesses) :=
  ⟨(description_checks_use_defaulted_value (bareRepo "plain")).1 (Or.inl rfl),
   (description_checks_use_defaulted_value
      { bareRepo "plain" with description := some "A tool" }).2.1 "A tool" rfl
        (by decide) (by decide)⟩

/-! ## The `languages` tally -/

theorem languageValues_cons (it : Item) (rest : List Item) :
    languageValues (it :: rest) =
      (match it.json.language with
        | some l => if (l != "") = true then [l] else []
        | none => []) ++ languageValues rest := by
  unfold languageValues
  rw [List.filterMap_cons]
  cases it.json.language with
  | none => rfl
  | some l =>
    by_cases h : (l != "") = true
    · simp only [h, if_true]
      rfl
    · simp only [h]
      rfl

theorem loop_languages (engine : String → Option Int) (cutoff : Option Int)
    (items : List Item) (st : LoopState) :
    (items.foldl (loopStep engine cutoff) st).languages =
      (languageValues items).foldl trackLanguage st.languages := by
  induction items generalizing st with
  | nil => rfl
  | cons it rest ih =>
    rw [List.foldl_cons, ih, languageValues_cons, List.foldl_append]
    congr 1
    simp only [loopStep]
    cases it.json.language with
    | none => rfl
    | some l =>
      by_cases hne : (l != "") = true
      · simp only [hne, if_true]
        rfl
      · simp only [hne]
        rfl

theorem analyze_languages (engine : String → Option Int) (items : List Item) :
    (analyze engine items).languages = (languageValues items).foldl trackLanguage [] := by
  simp only [analyze, loop_languages, initState]

theorem lookup_eq_none_iff_not_mem_keys (acc : List (String × LangValue)) (k : String) :
    acc.lookup k = none ↔ k ∉ acc.map Prod.fst := by
  induction acc with
  | nil => simp
  | cons e rest ih =>
    obtain ⟨k1, v1⟩ := e
    rw [List.lookup_cons]
    by_cases h : k = k1
    · subst h
      simp
    · have hne : (k == k1) = false := beq_eq_false_iff_ne.mpr h
      rw [hne]
      simp [ih, h]

theorem keys_setOwn (k : String) (v : LangValue) (acc : List (String × LangValue)) :
    (setOwn k v acc).map Prod.fst = acc.map Prod.fst := by
  induction acc with
  | nil => rfl
  | cons e rest ih =>
    obtain ⟨k1, v1⟩ := e
    unfold setOwn
    by_cases h : k1 = k
    · simp [h]
    · simp [h, ih]

theorem keys_trackLanguage (acc : List (String × LangValue)) (k : String) :
    (trackLanguage acc k).map Prod.fst =
      if k ∈ acc.map Prod.fst ∨ k = "__proto__" then acc.map Prod.fst
      else acc.map Prod.fst ++ [k] := by
  unfold trackLanguage
  cases hl : acc.lookup k with
  | some v =>
    have hmem : k ∈ acc.map Prod.fst := by
      by_contra hn
      rw [(lookup_eq_none_iff_not_mem_keys acc k).mpr hn] at hl
      cases hl
    cases v <;> simp only [keys_setOwn, hmem, true_or, if_true]
  | none =>
    have hmem : k ∉ acc.map Prod.fst := (lookup_eq_none_iff_not_mem_keys acc k).mp hl
    by_cases hp : k = "__proto__"
    · simp [hp]
    · by_cases hf : k ∈ protoFunctionProps
      · simp [hp, hf, hmem]
      · simp [hp, hf, hmem]

/-- The keys of `languages` are, without repetition, the language values seen
other than `__proto__`. -/
theorem keys_foldl_trackLanguage (ls : List String) :
    ((ls.foldl trackLanguage []).map Prod.fst).Nodup ∧
    ∀ k, k ∈ (ls.foldl trackLanguage []).map Prod.fst ↔ (k ∈ ls ∧ k ≠ "__proto__") := by
  induction ls using List.reverseRecOn with
  | nil => simp
  | append_singleton ls l ih =>
    obtain ⟨hnd, hmem⟩ := ih
    rw [List.foldl_append, List.foldl_cons, List.foldl_nil, keys_trackLanguage]
    by_cases hc : l ∈ (ls.foldl trackLanguage []).map Prod.fst ∨ l = "__proto__"
    · rw [if_pos hc]
      refine ⟨hnd, ?_⟩
      intro k
      rw [hmem k, List.mem_append, List.mem_singleton]
      constructor
      · rintro ⟨h1, h2⟩
        exact ⟨Or.inl h1, h2⟩
      · rintro ⟨h1 | h1, h2⟩
        · exact ⟨h1, h2⟩
        · subst h1
          rcases hc with hc | hc
          · exact (hmem k).mp hc
          · exact absurd hc h2
    · rw [if_neg hc]
      have hc1 : l ∉ (ls.foldl trackLanguage []).map Prod.fst := fun h => hc (Or.inl h)
      have hc2 : l ≠ "__proto__" := fun h => hc (Or.inr h)
      refine ⟨?_, ?_⟩
      · rw [List.nodup_append]
        refine ⟨hnd, List.nodup_singleton l, ?_⟩
        intro a ha hb
        rw [List.mem_singleton] at hb
        subst hb
        exact hc1 ha
      · intro k
        rw [List.mem_append, List.mem_singleton, hmem k, List.mem_append, List.mem_singleton]
        constructor
        · rintro (⟨h1, h2⟩ | h1)
          · exact ⟨Or.inl h1, h2⟩
          · subst h1
            exact ⟨Or.inr rfl, hc2⟩
        · rintro ⟨h1 | h1, h2⟩
          · exact Or.inl ⟨h1, h2⟩
          · exact Or.inr h1

theorem lookup_setOwn (k k1 : String) (v w : LangValue) (acc : List (String × LangValue))
    (h : acc.lookup k = some w) :
    (setOwn k v acc).lookup k1 = if k1 = k then some v else acc.lookup k1 := by
  induction acc with
  | nil => simp at h
  | cons e rest ih =>
    obtain ⟨k2, v2⟩ := e
    unfold setOwn
    by_cases h2 : k2 = k
    · subst h2
      rw [if_pos rfl]
      by_cases h3 : k1 = k2
      · subst h3
        rw [if_pos rfl, lookup_cons_self]
      · rw [if_neg h3, lookup_cons_ne k1 k2 _ _ h3, lookup_cons_ne k1 k2 _ _ h3]
    · rw [if_neg h2]
      rw [lookup_cons_ne k k2 _ _ (fun e => h2 e.symm)] at h
      by_cases h3 : k1 = k2
      · subst h3
        rw [if_neg h2, lookup_cons_self, lookup_cons_self]
      · rw [lookup_cons_ne k1 k2 _ _ h3, lookup_cons_ne k1 k2 _ _ h3]
        exact ih h

theorem lookup_append_new (k k1 : String) (v : LangValue) (acc : List (String × LangValue))
    (h : acc.lookup k = none) :
    (acc ++ [(k, v)]).lookup k1 = if k1 = k then some v else acc.lookup k1 := by
  induction acc with
  | nil =>
    rw [List.nil_append]
    by_cases h3 : k1 = k
    · subst h3
      rw [if_pos rfl, lookup_cons_self]
    · rw [if_neg h3, lookup_cons_ne k1 k _ _ h3]
  | cons e rest ih =>
    obtain ⟨k2, v2⟩ := e
    have hk : k ≠ k2 := by
      intro e
      rw [e, lookup_cons_self] at h
      cases h
    rw [lookup_cons_ne k k2 _ _ hk] at h
    rw [List.cons_append]
    by_cases h3 : k1 = k2
    · subst h3
      rw [lookup_cons_self, lookup_cons_self, if_neg (fun e => hk e.symm)]
    · rw [lookup_cons_ne k1 k2 _ _ h3, lookup_cons_ne k1 k2 _ _ h3]
      exact ih h

theorem trackLanguage_new (acc : List (String × LangValue)) (k : String)
    (h : acc.lookup k = none) (hk : k ∉ inheritedProps) :
    trackLanguage acc k = acc ++ [(k, LangValue.num 1)] := by
  have hl1 : k ≠ "__proto__" := fun e => hk (by rw [e]; exact List.mem_cons_self _ _)
  have hl2 : k ∉ protoFunctionProps := fun e => hk (List.mem_cons_of_mem _ e)
  unfold trackLanguage
  rw [h]
  simp only [if_neg hl1, if_neg hl2]

theorem trackLanguage_seen (acc : List (String × LangValue)) (k : String) (n : Nat)
    (h : acc.lookup k = some (LangValue.num n)) :
    trackLanguage acc k = setOwn k (LangValue.num (n + 1)) acc := by
  unfold trackLanguage
  rw [h]

theorem count_singleton_ne (k l : String) (h : k ≠ l) : List.count k [l] = 0 := by
  rw [List.count_eq_zero, List.mem_singleton]
  exact h

theorem total_setOwn (k : String) (n : Nat) (acc : List (String × LangValue))
    (h : acc.lookup k = some (LangValue.num n)) :
    ((setOwn k (LangValue.num (n + 1)) acc).map (fun e => countOf e.2)).sum =
      (acc.map (fun e => countOf e.2)).sum + 1 := by
  induction acc with
  | nil => simp at h
  | cons e rest ih =>
    obtain ⟨k2, v2⟩ := e
    unfold setOwn
    rw [List.lookup_cons] at h
    by_cases h2 : k2 = k
    · subst h2
      rw [beq_self_eq_true] at h
      have hv : v2 = LangValue.num n := Option.some.inj h
      subst hv
      simp [countOf]
      omega
    · have hk : (k == k2) = false := beq_eq_false_iff_ne.mpr (fun e => h2 e.symm)
      rw [hk] at h
      simp only [if_neg h2, List.map_cons, List.sum_cons, ih h]
      omega

/-- When no language is named like a property inherited from `Object.prototype`,
every key of `languages` holds the number of times it was seen, and the numbers
add up to the number of values seen. -/
theorem counts_foldl_trackLanguage (ls : List String) (h : ∀ l ∈ ls, l ∉ inheritedProps) :
    (∀ k, (ls.foldl trackLanguage []).lookup k =
      if ls.count k = 0 then none else some (LangValue.num (ls.count k))) ∧
    ((ls.foldl trackLanguage []).map (fun e => countOf e.2)).sum = ls.length := by
  induction ls using List.reverseRecOn with
  | nil => simp
  | append_singleton ls l ih =>
    have hl : l ∉ inheritedProps := h l (by simp)
    obtain ⟨hlook, htot⟩ := ih (fun x hx => h x (by simp [hx]))
    rw [List.foldl_append, List.foldl_cons, List.foldl_nil]
    have hcur := hlook l
    by_cases hz : ls.count l = 0
    · rw [if_pos hz] at hcur
      rw [trackLanguage_new _ _ hcur hl]
      refine ⟨?_, ?_⟩
      · intro k
        rw [lookup_append_new l k _ _ hcur, hlook k, List.count_append]
        by_cases hk : k = l
        · subst hk
          simp [hz]
        · simp [hk, count_singleton_ne k l hk]
      · rw [List.map_append, List.sum_append, htot]
        simp [countOf]
    · rw [if_neg hz] at hcur
      rw [trackLanguage_seen _ _ _ hcur]
      refine ⟨?_, ?_⟩
      · intro k
        rw [lookup_setOwn l k _ _ _ hcur, hlook k, List.count_append]
        by_cases hk : k = l
        · subst hk
          simp
        · simp [hk, count_singleton_ne k l hk]
      · rw [total_setOwn l _ _ hcur, htot]
        simp

theorem count_languageValues (items : List Item) (k : String) (hk : k ≠ "") :
    (languageValues items).count k = items.countP (fun it => it.json.language == some k) := by
  induction items with
  | nil => rfl
  | cons it rest ih =>
    rw [languageValues_cons, List.count_append, ih, List.countP_cons]
    cases hl : it.json.language with
    | none => simp
    | some l =>
      by_cases h1 : l = ""
      · subst h1
        have : ¬ ("" = k) := fun e => hk e.symm
        simp [this]
      · by_cases h2 : l = k
        · subst h2
          simp [h1]
          omega
        · simp [h1, h2, count_singleton_ne k l (fun e => h2 e.symm)]

/-- The statement of C5 holds on every input in which no language is named like a
property inherited from `Object.prototype`. -/
theorem languages_tally_without_inherited_names (engine : String → Option Int)
    (items : List Item) (h : ∀ l ∈ languageValues items, l ∉ inheritedProps) :
    (∀ k, k ∈ (analyze engine items).languages.map Prod.fst ↔ k ∈ languageValues items) ∧
    ((analyze engine items).languages.map Prod.fst).Nodup ∧
    (∀ k ∈ (analyze engine items).languages.map Prod.fst,
      (analyze engine items).languages.lookup k =
        some (LangValue.num (items.countP (fun it => it.json.language == some k)))) ∧
    ((analyze engine items).languages.map (fun e => countOf e.2)).sum =
      (languageValues items).length := by
  obtain ⟨hnd, hmem⟩ := keys_foldl_trackLanguage (languageValues items)
  obtain ⟨hlook, htot⟩ := counts_foldl_trackLanguage (languageValues items) h
  have hkeys : ∀ k, k ∈ (analyze engine items).languages.map Prod.fst ↔
      k ∈ languageValues items := by
    intro k
    rw [analyze_languages, hmem k]
    constructor
    · exact fun hk => hk.1
    · intro hk
      exact ⟨hk, fun e => h k hk (by rw [e]; exact List.mem_cons_self _ _)⟩
  have hne : ∀ k ∈ languageValues items, k ≠ "" := by
    intro k hk
    simp only [languageValues, List.mem_filterMap] at hk
    obtain ⟨it, _, hit⟩ := hk
    cases hl : it.json.language with
    | none => rw [hl] at hit; cases hit
    | some l =>
      rw [hl] at hit
      by_cases h1 : l = ""
      · simp [h1] at hit
      · simp [h1] at hit
        exact hit ▸ h1
  refine ⟨hkeys, ?_, ?_, ?_⟩
  · rw [analyze_languages]
    exact hnd
  · intro k hk
    have hk1 : k ∈ languageValues items := (hkeys k).mp hk
    have hpos : (languageValues items).count k ≠ 0 := by
      rw [Ne, List.count_eq_zero]
      exact fun hn => hn hk1
    rw [analyze_languages, hlook k, if_neg hpos, count_languageValues items k (hne k hk1)]
  · rw [analyze_languages]
    exact htot

/-- C5 at the failing input. A repository whose language is `__proto__` has a
non-empty language, yet `languages` stays empty; a language named `constructor`
gets a key whose value is a string, not a count. -/
theorem languages_tally_misses_proto (engine : String → Option Int) :
    languageValues [⟨langRepo "r" "__proto__"⟩] = ["__proto__"] ∧
    (analyze engine [⟨langRepo "r" "__proto__"⟩]).languages = [] ∧
    (analyze engine [⟨langRepo "r" "constructor"⟩]).languages =
      [("constructor", LangValue.text)] := by
  refine ⟨by decide, ?_, ?_⟩
  · rw [analyze_languages]
    decide
  · rw [analyze_languages]
    decide

/-! ## Profile strength -/

theorem profileStrengthOf_eq_spec (total recent distinctLanguages : Nat) :
    profileStrengthOf total recent distinctLanguages =
      specProfileStrength total distinctLanguages recent := rfl

theorem analyze_profileStrength (engine : String → Option Int) (items : List Item) :
    (analyze engine items).profileStrength =
      specProfileStrength items.length ((analyze engine items).languages.map Prod.fst).length
        (analyze engine items).recentRepos := rfl

/-- The number of keys of `languages` is the number of distinct language values
other than `__proto__`. -/
theorem analyze_languages_keys_length (engine : String → Option Int) (items : List Item) :
    ((analyze engine items).languages.map Prod.fst).length =
      ((languageValues items).filter (fun l => l != "__proto__")).dedup.length := by
  obtain ⟨hnd, hmem⟩ := keys_foldl_trackLanguage (languageValues items)
  rw [analyze_languages]
  apply List.Perm.length_eq
  rw [List.perm_ext_iff_of_nodup hnd (List.nodup_dedup _)]
  intro k
  rw [hmem k, List.mem_dedup, List.mem_filter]
  simp

/-- The statement of C7 holds on every input in which no language is named
`__proto__`. -/
theorem profileStrength_without_proto (engine : String → Option Int) (items : List Item)
    (h : "__proto__" ∉ languageValues items) :
    (analyze engine items).profileStrength =
      specProfileStrength items.length (languageValues items).dedup.length
        (items.countP (fun it => updatedAfterCutoff engine it.json.updated_at)) := by
  have hf : (languageValues items).filter (fun l => l != "__proto__") = languageValues items := by
    rw [List.filter_eq_self]
    intro l hl
    have : l ≠ "__proto__" := fun e => h (e ▸ hl)
    simpa using this
  rw [analyze_profileStrength, analyze_languages_keys_length, hf, analyze_recentRepos]

/-- C7 at the failing input. Twenty repositories whose languages are `__proto__`,
`Go` and `Rust` have three distinct non-empty language values, for which the
specification gives `Strong`; the script counts two keys and answers `Weak`. -/
theorem profileStrength_weak_with_proto (engine : String → Option Int) :
    twentyWithProto.length = 20 ∧
    (languageValues twentyWithProto).dedup.length = 3 ∧
    specProfileStrength 20 3 (analyze engine twentyWithProto).recentRepos = "Strong" ∧
    ((analyze engine twentyWithProto).languages.map Prod.fst).length = 2 ∧
    (analyze engine twentyWithProto).profileStrength = "Weak" := by
  have hr : (analyze engine twentyWithProto).recentRepos = 0 := by
    rw [analyze_recentRepos]
    rfl
  have hk : ((analyze engine twentyWithProto).languages.map Prod.fst).length = 2 := by
    rw [analyze_languages]
    decide
  refine ⟨by decide, by decide, ?_, hk, ?_⟩
  · rw [hr]
    decide
  · rw [analyze_profileStrength, hk, hr]
    decide

/-! ## The main idea -/

theorem orDefault_ne_empty (x : Option String) (d : String) (hd : d ≠ "") :
    orDefault x d ≠ "" := by
  unfold orDefault
  cases x with
  | none => exact hd
  | some s =>
    by_cases h : s = ""
    · simp only [h, if_true]
      exact hd
    · simp only [h, if_false]
      exact h

theorem extractionOf_mainIdea_ne_empty (c : String) : (extractionOf c).mainIdea ≠ "" := by
  have h := orDefault_ne_empty (some (join " " ((readmeLines c).take 3)))
    "README exists but no main idea detected" (by decide)
  exact h

theorem extract_cases (repo : RawRepository) :
    extractReadmeMainIdea repo = noReadme ∨
      ∃ c, extractReadmeMainIdea repo = extractionOf c := by
  cases hf : repo.files with
  | none =>
    left
    simp only [extractReadmeMainIdea, hf]
  | some files =>
    cases hk : readmeFileOf files with
    | none =>
      left
      simp only [extractReadmeMainIdea, hf, hk]
    | some k =>
      right
      cases hl : files.lookup k with
      | none => exact ⟨"", by simp only [extractReadmeMainIdea, hf, hk, hl]⟩
      | some obj =>
        exact ⟨orDefault obj.content "", by simp only [extractReadmeMainIdea, hf, hk, hl]⟩

theorem extract_mainIdea_ne_empty (repo : RawRepository) :
    (extractReadmeMainIdea repo).mainIdea ≠ "" := by
  rcases extract_cases repo with h | ⟨c, h⟩
  · rw [h]
    decide
  · rw [h]
    exact extractionOf_mainIdea_ne_empty c

theorem extractionOf_blank (c : String) (h : ∀ l ∈ split c, trim l = "") :
    (extractionOf c).mainIdea = "README exists but no main idea detected" := by
  have hl : readmeLines c = [] := by
    unfold readmeLines
    rw [List.filter_eq_nil_iff]
    intro l hl
    obtain ⟨x, hx, rfl⟩ := List.mem_map.mp hl
    simp [h x hx]
  unfold extractionOf
  simp only [hl]
  rfl

/-- C13. The main idea returned by `extractReadmeMainIdea`, hence the one of every
record of `deterministicReview`, is a non-empty string: `No main idea available`
when there is no README, `README exists but no main idea detected` when the README
found has no line that is non-empty after trimming. -/
theorem mainIdea_never_empty (repo : RawRepository) :
    (extractReadmeMainIdea repo).mainIdea ≠ "" ∧
    (∀ (engine : String → Option Int) (items : List Item),
      ∀ r ∈ (analyze engine items).deterministicReview, r.mainIdea ≠ "") ∧
    ((repo.files = none ∨
        ∃ files, repo.files = some files ∧ ∀ e ∈ files, toLowerCase e.1 ≠ "readme.md") →
      (extractReadmeMainIdea repo).mainIdea = "No main idea available") ∧
    (∀ pre k obj post, repo.files = some (pre ++ (k, obj) :: post) →
      (∀ e ∈ pre, toLowerCase e.1 ≠ "readme.md") → toLowerCase k = "readme.md" →
      (∀ l ∈ split (orDefault obj.content ""), trim l = "") →
      (extractReadmeMainIdea repo).mainIdea = "README exists but no main idea detected") := by
  refine ⟨extract_mainIdea_ne_empty repo, ?_, ?_, ?_⟩
  · intro engine items r hr
    rw [analyze_deterministicReview] at hr
    obtain ⟨it, _, rfl⟩ := List.mem_map.mp hr
    exact extract_mainIdea_ne_empty it.json
  · intro h
    rcases h with h | ⟨files, hf, hnone⟩
    · simp only [extractReadmeMainIdea, h]
      rfl
    · have hfind : readmeFileOf files = none :=
        (readmeFileOf_eq_none files).mpr
          (fun e he => (isReadmeKey_eq_false_iff _).mpr (hnone e he))
      simp only [extractReadmeMainIdea, hf, hfind]
      rfl
  · intro pre k obj post hfiles hpre hk hblank
    rw [extract_of_split repo pre post k obj hfiles
      (fun e he => (isReadmeKey_eq_false_iff _).mpr (hpre e he))
      ((isReadmeKey_eq_true_iff _).mpr hk)]
    exact extractionOf_blank _ hblank

theorem mainIdea_never_empty_witness :
    (extractReadmeMainIdea (bareRepo "bare")).mainIdea = "No main idea available" ∧
    (extractReadmeMainIdea blankReadme).mainIdea = "README exists but no main idea detected" :=
  ⟨(mainIdea_never_empty (bareRepo "bare")).2.2.1 (Or.inl rfl),
   (mainIdea_never_empty blankReadme).2.2.2 [] "README.md" (FileObj.mk (some " \n\t\n")) [] rfl
     (by decide) (by decide) (by decide)⟩

theorem append_ne_of_head (p q x y : String) (c d : Char) (lp lq : List Char)
    (hp : p.data = c :: lp) (hq : q.data = d :: lq) (hcd : c ≠ d) : p ++ x ≠ q ++ y := by
  intro h
  have h1 := congrArg String.data h
  rw [String.data_append, String.data_append, hp, hq, List.cons_append, List.cons_append] at h1
  exact hcd (List.cons.inj h1).1

theorem mem_strengthsOf_cases (repo : RawRepository) (ex : ReadmeExtraction) (s : String)
    (hs : s ∈ strengthsOf repo ex) :
    (∃ l, s = "Uses " ++ l) ∨ (∃ t, s = "Has description: \"" ++ t) ∨
      (s = "Has README" ∧ ex.readme ≠ "" ∧ ex.readme ≠ "No README content") ∨
      (s = "Main idea: " ++ ex.mainIdea ∧ ex.mainIdea ≠ "" ∧
        ex.mainIdea ≠ "No main idea available") := by
  unfold strengthsOf at hs
  simp only [List.mem_append] at hs
  rcases hs with ((hs | hs) | hs) | hs
  · left
    cases hlang : repo.language with
    | none => rw [hlang] at hs; simp at hs
    | some lang =>
      rw [hlang] at hs
      by_cases hc : (lang != "" && lang != "Unknown") = true
      · simp only [hc, if_true, List.mem_singleton] at hs
        exact ⟨lang, hs⟩
      · simp [hc] at hs
  · right; left
    cases hd : repo.description with
    | none => rw [hd] at hs; simp at hs
    | some d =>
      rw [hd] at hs
      by_cases hc : (d != "" && d != "No description provided") = true
      · simp only [hc, if_true, List.mem_singleton] at hs
        exact ⟨d ++ "\"", by rw [hs, String.append_assoc]⟩
      · simp [hc] at hs
  · right; right; left
    by_cases hc : (ex.readme != "" && ex.readme != "No README content") = true
    · simp only [hc, if_true, List.mem_singleton] at hs
      exact ⟨hs, by simpa using hc⟩
    · simp [hc] at hs
  · right; right; right
    by_cases hc : (ex.mainIdea != "" && ex.mainIdea != "No main idea available") = true
    · simp only [hc, if_true, List.mem_singleton] at hs
      exact ⟨hs, by simpa using hc⟩
    · simp [hc] at hs

theorem mainIdeaEntry_mem_strengthsOf (repo : RawRepository) (ex : ReadmeExtraction) :
    ("Main idea: " ++ ex.mainIdea) ∈ strengthsOf repo ex ↔
      (ex.mainIdea ≠ "" ∧ ex.mainIdea ≠ "No main idea available") := by
  constructor
  · intro hs
    rcases mem_strengthsOf_cases repo ex _ hs with ⟨l, h⟩ | ⟨t, h⟩ | ⟨h, _⟩ | ⟨_, h⟩
    · exact absurd h (append_ne_of_head "Main idea: " "Uses " _ _ 'M' 'U' _ _ rfl rfl
        (by decide))
    · exact absurd h (append_ne_of_head "Main idea: " "Has description: \"" _ _ 'M' 'H' _ _
        rfl rfl (by decide))
    · have h1 : "Main idea: " ++ ex.mainIdea = "Has README" ++ "" := by
        rw [h]
        rfl
      exact absurd h1 (append_ne_of_head "Main idea: " "Has README" _ _ 'M' 'H' _ _ rfl rfl
        (by decide))
    · exact h
  · intro h
    have hc : (ex.mainIdea != "" && ex.mainIdea != "No main idea available") = true := by
      simp [h.1, h.2]
    unfold strengthsOf
    simp only [hc, if_true, List.mem_append, List.mem_singleton, or_true]

theorem missingReadme_mem_weaknessesOf (repo : RawRepository) (ex : ReadmeExtraction) :
    "Missing README" ∈ weaknessesOf repo ex ↔
      (ex.readme = "" ∨ ex.readme = "No README content") := by
  have hW : "Missing README" ∉
      (if (!(truthy repo.description) ||
          repo.description == some "No description provided") = true then
        ["Missing description"] else []) := by
    by_cases hc : (!(truthy repo.description) ||
        repo.description == some "No description provided") = true
    · simp only [hc, if_true, List.mem_singleton]
      decide
    · simp [hc]
  unfold weaknessesOf
  simp only [List.mem_append, hW, false_or]
  by_cases hc : (ex.readme == "" || ex.readme == "No README content") = true
  · simp only [hc, if_true, List.mem_singleton, true_iff]
    simpa using hc
  · simp only [hc]
    simp only [Bool.false_eq_true, if_false, List.not_mem_nil, false_iff]
    simpa using hc

/-- C11. For a repository without a files map the record's main idea is
`No main idea available`, `strengths` has neither `Has README` nor an entry that
begins with `Main idea:`, and `weaknesses` has `Missing README`. -/
theorem review_without_files (repo : RawRepository) (h : repo.files = none) :
    (reviewOf repo).mainIdea = "No main idea available" ∧
    "Has README" ∉ (reviewOf repo).strengths ∧
    (∀ s ∈ (reviewOf repo).strengths, ¬ startsWith "Main idea:" s) ∧
    "Missing README" ∈ (reviewOf repo).weaknesses := by
  have hex : extractReadmeMainIdea repo = noReadme := by
    simp only [extractReadmeMainIdea, h]
  have hm : (reviewOf repo).mainIdea = "No main idea available" := by
    show (extractReadmeMainIdea repo).mainIdea = _
    rw [hex]
    rfl
  have hr : (extractReadmeMainIdea repo).readme = "No README content" := by
    rw [hex]
    rfl
  refine ⟨hm, ?_, ?_, ?_⟩
  · intro hmem
    exact ((hasReadme_mem_strengthsOf repo _).mp hmem).2 hr
  · intro s hs ⟨t, ht⟩
    rcases mem_strengthsOf_cases repo _ s hs with ⟨l, h1⟩ | ⟨u, h1⟩ | ⟨_, _, h1⟩ | ⟨_, _, h1⟩
    · rw [h1] at ht
      exact append_ne_of_head "Uses " "Main idea:" _ _ 'U' 'M' _ _ rfl rfl (by decide) ht
    · rw [h1] at ht
      exact append_ne_of_head "Has description: \"" "Main idea:" _ _ 'H' 'M' _ _ rfl rfl
        (by decide) ht
    · exact h1 hr
    · exact h1 hm
  · exact (missingReadme_mem_weaknessesOf repo _).mpr (Or.inr hr)

theorem review_without_files_witness :
    (reviewOf (langRepo "plain" "Go")).mainIdea = "No main idea available" ∧
    "Has README" ∉ (reviewOf (langRepo "plain" "Go")).strengths ∧
    (∀ s ∈ (reviewOf (langRepo "plain" "Go")).strengths, ¬ startsWith "Main idea:" s) ∧
    "Missing README" ∈ (reviewOf (langRepo "plain" "Go")).weaknesses :=
  review_without_files (langRepo "plain" "Go") rfl

/-- C12. `strengths` contains the entry `Main idea: ` followed by the record's main
idea exactly when that main idea is not `No main idea available`; a repository
whose README is found but has no line that is non-empty after trimming gets
`Main idea: README exists but no main idea detected`. -/
theorem mainIdea_strength_iff (repo : RawRepository) :
    (("Main idea: " ++ (reviewOf repo).mainIdea) ∈ (reviewOf repo).strengths ↔
      (reviewOf repo).mainIdea ≠ "No main idea available") ∧
    (∀ pre k obj post, repo.files = some (pre ++ (k, obj) :: post) →
      (∀ e ∈ pre, toLowerCase e.1 ≠ "readme.md") → toLowerCase k = "readme.md" →
      (∀ l ∈ split (orDefault obj.content ""), trim l = "") →
      "Main idea: README exists but no main idea detected" ∈ (reviewOf repo).strengths) := by
  have h1 : ("Main idea: " ++ (reviewOf repo).mainIdea) ∈ (reviewOf repo).strengths ↔
      (reviewOf repo).mainIdea ≠ "No main idea available" := by
    show ("Main idea: " ++ (extractReadmeMainIdea repo).mainIdea) ∈
      strengthsOf repo (extractReadmeMainIdea repo) ↔ _
    rw [mainIdeaEntry_mem_strengthsOf]
    exact ⟨fun h => h.2, fun h => ⟨extract_mainIdea_ne_empty repo, h⟩⟩
  refine ⟨h1, ?_⟩
  intro pre k obj post hfiles hpre hk hblank
  have hm : (reviewOf repo).mainIdea = "README exists but no main idea detected" := by
    show (extractReadmeMainIdea repo).mainIdea = _
    rw [extract_of_split repo pre post k obj hfiles
      (fun e he => (isReadmeKey_eq_false_iff _).mpr (hpre e he))
      ((isReadmeKey_eq_true_iff _).mpr hk)]
    exact extractionOf_blank _ hblank
  have h2 := h1.mpr (by rw [hm]; decide)
  rw [hm] at h2
  exact h2

theorem mainIdea_strength_iff_witness :
    "Main idea: README exists but no main idea detected" ∈ (reviewOf blankReadme).strengths :=
  (mainIdea_strength_iff blankReadme).2 [] "README.md" (FileObj.mk (some " \n\t\n")) [] rfl
    (by decide) (by decide) (by decide)

/-- C19. Every review record carries exactly one README verdict: `Has README`
among the strengths or `Missing README` among the weaknesses, never both and
never neither. -/
theorem exactly_one_readme_verdict (repo : RawRepository) :
    ("Has README" ∈ (reviewOf repo).strengths ∨
      "Missing README" ∈ (reviewOf repo).weaknesses) ∧
    ¬ ("Has README" ∈ (reviewOf repo).strengths ∧
      "Missing README" ∈ (reviewOf repo).weaknesses) := by
  have hS : "Has README" ∈ (reviewOf repo).strengths ↔
      ((extractReadmeMainIdea repo).readme ≠ "" ∧
        (extractReadmeMainIdea repo).readme ≠ "No README content") :=
    hasReadme_mem_strengthsOf repo _
  have hW : "Missing README" ∈ (reviewOf repo).weaknesses ↔
      ((extractReadmeMainIdea repo).readme = "" ∨
        (extractReadmeMainIdea repo).readme = "No README content") :=
    missingReadme_mem_weaknessesOf repo _
  rw [hS, hW]
  by_cases h1 : (extractReadmeMainIdea repo).readme = ""
  · simp [h1]
  · by_cases h2 : (extractReadmeMainIdea repo).readme = "No README content"
    · simp [h2]
    · simp [h1, h2]

/-! ## Missing content, empty input, user name, defaults -/

theorem orDefault_of_absent (x : Option String) (d : String) (h : x = none ∨ x = some "") :
    orDefault x d = d := by
  rcases h with h | h <;> rw [h] <;> rfl

theorem orDefault_of_present (s d : String) (h : s ≠ "") : orDefault (some s) d = s := by
  unfold orDefault
  simp only [h, if_false]

/-- C14, as the code satisfies it. When the README file found has no content, or
an empty one, `extractReadmeMainIdea` returns the empty string as `readme` (not
the sentinel) and `README exists but no main idea detected` as `mainIdea`; the
review record then has `Missing README` and no `Has README`. -/
theorem extract_readme_without_content (repo : RawRepository)
    (pre post : List (String × FileObj)) (k : String) (obj : FileObj)
    (hfiles : repo.files = some (pre ++ (k, obj) :: post))
    (hpre : ∀ e ∈ pre, toLowerCase e.1 ≠ "readme.md") (hk : toLowerCase k = "readme.md")
    (hc : obj.content = none ∨ obj.content = some "") :
    (extractReadmeMainIdea repo).readme = "" ∧
    (extractReadmeMainIdea repo).mainIdea = "README exists but no main idea detected" ∧
    "Missing README" ∈ (reviewOf repo).weaknesses ∧
    "Has README" ∉ (reviewOf repo).strengths := by
  have hex := extract_of_split repo pre post k obj hfiles
    (fun e he => (isReadmeKey_eq_false_iff _).mpr (hpre e he))
    ((isReadmeKey_eq_true_iff _).mpr hk)
  rw [orDefault_of_absent _ _ hc] at hex
  have hr : (extractReadmeMainIdea repo).readme = "" := by
    rw [hex]
    rfl
  refine ⟨hr, ?_, ?_, ?_⟩
  · rw [hex]
    decide
  · exact (missingReadme_mem_weaknessesOf repo _).mpr (Or.inl hr)
  · intro hmem
    exact ((hasReadme_mem_strengthsOf repo _).mp hmem).1 hr

theorem extract_readme_without_content_witness :
    (extractReadmeMainIdea readmeWithoutContent).readme = "" ∧
    (extractReadmeMainIdea readmeWithoutContent).mainIdea =
      "README exists but no main idea detected" ∧
    "Missing README" ∈ (reviewOf readmeWithoutContent).weaknesses ∧
    "Has README" ∉ (reviewOf readmeWithoutContent).strengths :=
  extract_readme_without_content readmeWithoutContent [] [] "readme.md" (FileObj.mk none) rfl
    (by decide) (by decide) (Or.inl rfl)

/-- C14 as worded fails: the README file of `readmeWithoutContent` is found and has
no content, and the readme returned is the empty string, not `No README content`. -/
theorem readme_not_sentinel_without_content :
    readmeFileOf (readmeWithoutContent.files.getD []) = some "readme.md" ∧
    (readmeWithoutContent.files.getD []).lookup "readme.md" = some (FileObj.mk none) ∧
    (extractReadmeMainIdea readmeWithoutContent).readme = "" ∧
    (extractReadmeMainIdea readmeWithoutContent).readme ≠ "No README content" := by
  refine ⟨by decide, by decide, by decide, by decide⟩

/-- C15. On the empty input the script returns zero counts, an empty `languages`,
`Weak`, an empty `deterministicReview`, the empty text and the user name
`Unknown`. -/
theorem analyze_empty (engine : String → Option Int) :
    analyze engine [] =
      { github_username := "Unknown"
        totalRepos := 0
        recentRepos := 0
        languages := []
        profileStrength := "Weak"
        deterministicReview := []
        repoDetailsText := "" } := rfl

theorem githubUsername_cons (it : Item) (rest : List Item) :
    githubUsername (it :: rest) =
      orDefault (it.json.owner.bind (fun o => o.login)) "Unknown" := rfl

/-- C16. The user name is the owner login of the first item when that login is
present and non-empty, `Unknown` otherwise (also for the empty input); the items
after the first do not matter. -/
theorem username_from_first_item (engine : String → Option Int) (items : List Item) :
    (∀ it rest o l, items = it :: rest → it.json.owner = some o → o.login = some l →
      l ≠ "" → (analyze engine items).github_username = l) ∧
    ((items = [] ∨ ∃ it rest, items = it :: rest ∧
        (it.json.owner = none ∨
          ∃ o, it.json.owner = some o ∧ (o.login = none ∨ o.login = some ""))) →
      (analyze engine items).github_username = "Unknown") ∧
    (∀ (it : Item) (rest other : List Item),
      (analyze engine (it :: rest)).github_username =
        (analyze engine (it :: other)).github_username) := by
  refine ⟨?_, ?_, ?_⟩
  · intro it rest o l hi ho hl hne
    subst hi
    show githubUsername (it :: rest) = l
    rw [githubUsername_cons, ho]
    show orDefault o.login "Unknown" = l
    rw [hl]
    exact orDefault_of_present l _ hne
  · intro h
    show githubUsername items = "Unknown"
    rcases h with h | ⟨it, rest, hi, h⟩
    · subst h
      rfl
    · subst hi
      rw [githubUsername_cons]
      rcases h with h | ⟨o, ho, h⟩
      · rw [h]
        rfl
      · rw [ho]
        exact orDefault_of_absent o.login _ h
  · intro it rest other
    rfl

theorem username_from_first_item_witness :
    (analyze (fun _ => none)
      [⟨{ bareRepo "a" with owner := some (Owner.mk (some "octocat")) }⟩,
        ⟨{ bareRepo "b" with owner := some (Owner.mk (some "someone")) }⟩]).github_username =
      "octocat" ∧
    (analyze (fun _ => none)
      [⟨{ bareRepo "a" with owner := some (Owner.mk (some "")) }⟩]).github_username =
      "Unknown" :=
  ⟨(username_from_first_item (fun _ => none)
      [⟨{ bareRepo "a" with owner := some (Owner.mk (some "octocat")) }⟩,
        ⟨{ bareRepo "b" with owner := some (Owner.mk (some "someone")) }⟩]).1
      _ _ (Owner.mk (some "octocat")) "octocat" rfl rfl rfl (by decide),
   (username_from_first_item (fun _ => none)
      [⟨{ bareRepo "a" with owner := some (Owner.mk (some "")) }⟩]).2.1
      (Or.inr ⟨_, _, rfl, Or.inr ⟨Owner.mk (some ""), rfl, Or.inr rfl⟩⟩)⟩

/-- C17. Each of the record fields description, language, html_url, updated_at and
topics is the input value when it is present (and, for a string, non-empty) and
its default otherwise; replacing one of these five input fields by any value
leaves the other four record fields as they were. -/
theorem record_fields_defaulted_independently (repo : RawRepository) :
    ((∀ d, repo.description = some d → d ≠ "" → (reviewOf repo).description = d) ∧
      ((repo.description = none ∨ repo.description = some "") →
        (reviewOf repo).description = "No description provided")) ∧
    ((∀ l, repo.language = some l → l ≠ "" → (reviewOf repo).language = l) ∧
      ((repo.language = none ∨ repo.language = some "") →
        (reviewOf repo).language = "Unknown")) ∧
    ((∀ u, repo.html_url = some u → u ≠ "" → (reviewOf repo).html_url = u) ∧
      ((repo.html_url = none ∨ repo.html_url = some "") →
        (reviewOf repo).html_url = "No URL")) ∧
    ((∀ u, repo.updated_at = some u → u ≠ "" → (reviewOf repo).updated_at = u) ∧
      ((repo.updated_at = none ∨ repo.updated_at = some "") →
        (reviewOf repo).updated_at = "Unknown")) ∧
    ((∀ t, repo.topics = some t → (reviewOf repo).topics = t) ∧
      (repo.topics = none → (reviewOf repo).topics = [])) ∧
    (∀ x : Option String,
      (reviewOf { repo with description := x }).language = (reviewOf repo).language ∧
      (reviewOf { repo with description := x }).html_url = (reviewOf repo).html_url ∧
      (reviewOf { repo with description := x }).updated_at = (reviewOf repo).updated_at ∧
      (reviewOf { repo with description := x }).topics = (reviewOf repo).topics) ∧
    (∀ x : Option String,
      (reviewOf { repo with language := x }).description = (reviewOf repo).description ∧
      (reviewOf { repo with language := x }).html_url = (reviewOf repo).html_url ∧
      (reviewOf { repo with language := x }).updated_at = (reviewOf repo).updated_at ∧
      (reviewOf { repo with language := x }).topics = (reviewOf repo).topics) ∧
    (∀ x : Option String,
      (reviewOf { repo with html_url := x }).description = (reviewOf repo).description ∧
      (reviewOf { repo with html_url := x }).language = (reviewOf repo).language ∧
      (reviewOf { repo with html_url := x }).updated_at = (reviewOf repo).updated_at ∧
      (reviewOf { repo with html_url := x }).topics = (reviewOf repo).topics) ∧
    (∀ x : Option String,
      (reviewOf { repo with updated_at := x }).description = (reviewOf repo).description ∧
      (reviewOf { repo with updated_at := x }).language = (reviewOf repo).language ∧
      (reviewOf { repo with updated_at := x }).html_url = (reviewOf repo).html_url ∧
      (reviewOf { repo with updated_at := x }).topics = (reviewOf repo).topics) ∧
    (∀ x : Option (List String),
      (reviewOf { repo with topics := x }).description = (reviewOf repo).description ∧
      (reviewOf { repo with topics := x }).language = (reviewOf repo).language ∧
      (reviewOf { repo with topics := x }).html_url = (reviewOf repo).html_url ∧
      (reviewOf { repo with topics := x }).updated_at = (reviewOf repo).updated_at) := by
  refine ⟨⟨?_, ?_⟩, ⟨?_, ?_⟩, ⟨?_, ?_⟩, ⟨?_, ?_⟩, ⟨?_, ?_⟩, ?_, ?_, ?_, ?_, ?_⟩
  · intro d hd hne
    show orDefault repo.description _ = d
    rw [hd]
    exact orDefault_of_present d _ hne
  · intro h
    exact orDefault_of_absent _ _ h
  · intro d hd hne
    show orDefault repo.language _ = d
    rw [hd]
    exact orDefault_of_present d _ hne
  · intro h
    exact orDefault_of_absent _ _ h
  · intro d hd hne
    show orDefault repo.html_url _ = d
    rw [hd]
    exact orDefault_of_present d _ hne
  · intro h
    exact orDefault_of_absent _ _ h
  · intro d hd hne
    show orDefault repo.updated_at _ = d
    rw [hd]
    exact orDefault_of_present d _ hne
  · intro h
    exact orDefault_of_absent _ _ h
  · intro t ht
    show repo.topics.getD [] = t
    rw [ht]
    rfl
  · intro ht
    show repo.topics.getD [] = []
    rw [ht]
    rfl
  · exact fun x => ⟨rfl, rfl, rfl, rfl⟩
  · exact fun x => ⟨rfl, rfl, rfl, rfl⟩
  · exact fun x => ⟨rfl, rfl, rfl, rfl⟩
  · exact fun x => ⟨rfl, rfl, rfl, rfl⟩
  · exact fun x => ⟨rfl, rfl, rfl, rfl⟩

theorem record_fields_defaulted_independently_witness :
    (reviewOf { bareRepo "w" with language := some "Go" }).language = "Go" ∧
    (reviewOf { bareRepo "w" with language := some "Go" }).html_url = "No URL" :=
  ⟨(record_fields_defaulted_independently { bareRepo "w" with language := some "Go" }).2.1.1
      "Go" rfl (by decide),
   (record_fields_defaulted_independently { bareRepo "w" with language := some "Go" }).2.2.1.2
      (Or.inl rfl)⟩

/-! ## Sharding -/

theorem languageValues_append (xs ys : List Item) :
    languageValues (xs ++ ys) = languageValues xs ++ languageValues ys := by
  unfold languageValues
  rw [List.filterMap_append]

theorem countAt_foldl_trackLanguage (ls : List String) (h : ∀ l ∈ ls, l ∉ inheritedProps)
    (k : String) : countAt (ls.foldl trackLanguage []) k = some (ls.count k) := by
  unfold countAt
  rw [(counts_foldl_trackLanguage ls h).1 k]
  by_cases hz : ls.count k = 0
  · rw [if_pos hz, hz]
  · rw [if_neg hz]

/-- The statement of C18 holds for the counts and the reviews on every input, and
for `languages` on every input in which no language is named like a property
inherited from `Object.prototype`. -/
theorem shard_merge_without_inherited_names (engine : String → Option Int)
    (xs ys : List Item) :
    (analyze engine (xs ++ ys)).totalRepos =
      (analyze engine xs).totalRepos + (analyze engine ys).totalRepos ∧
    (analyze engine (xs ++ ys)).recentRepos =
      (analyze engine xs).recentRepos + (analyze engine ys).recentRepos ∧
    (analyze engine (xs ++ ys)).deterministicReview =
      (analyze engine xs).deterministicReview ++ (analyze engine ys).deterministicReview ∧
    ((∀ l ∈ languageValues (xs ++ ys), l ∉ inheritedProps) →
      ∀ k, ∃ a b, countAt (analyze engine xs).languages k = some a ∧
        countAt (analyze engine ys).languages k = some b ∧
        countAt (analyze engine (xs ++ ys)).languages k = some (a + b)) := by
  refine ⟨?_, ?_, ?_, ?_⟩
  · show (xs ++ ys).length = xs.length + ys.length
    exact List.length_append xs ys
  · rw [analyze_recentRepos, analyze_recentRepos, analyze_recentRepos, List.countP_append]
  · rw [analyze_deterministicReview, analyze_deterministicReview, analyze_deterministicReview,
      List.map_append]
  · intro h k
    rw [languageValues_append] at h
    have hx : ∀ l ∈ languageValues xs, l ∉ inheritedProps :=
      fun l hl => h l (List.mem_append_left _ hl)
    have hy : ∀ l ∈ languageValues ys, l ∉ inheritedProps :=
      fun l hl => h l (List.mem_append_right _ hl)
    refine ⟨(languageValues xs).count k, (languageValues ys).count k, ?_, ?_, ?_⟩
    · rw [analyze_languages]
      exact countAt_foldl_trackLanguage _ hx k
    · rw [analyze_languages]
      exact countAt_foldl_trackLanguage _ hy k
    · rw [analyze_languages, languageValues_append,
        countAt_foldl_trackLanguage _ h k, List.count_append]

/-- C18 at the failing input. With one repository in the language `constructor` in
each shard, neither shard nor the whole input holds a count under that key: the
value is a string, so there is no count to add up. -/
theorem shard_merge_fails_on_inherited_name (engine : String → Option Int) :
    languageValues ([⟨langRepo "x" "constructor"⟩] ++ [⟨langRepo "y" "constructor"⟩]) =
      ["constructor", "constructor"] ∧
    (analyze engine [⟨langRepo "x" "constructor"⟩]).languages =
      [("constructor", LangValue.text)] ∧
    (analyze engine ([⟨langRepo "x" "constructor"⟩] ++
      [⟨langRepo "y" "constructor"⟩])).languages = [("constructor", LangValue.text)] ∧
    countAt (analyze engine ([⟨langRepo "x" "constructor"⟩] ++
      [⟨langRepo "y" "constructor"⟩])).languages "constructor" = none := by
  refine ⟨by decide, ?_, ?_, ?_⟩
  · rw [analyze_languages]
    decide
  · rw [analyze_languages]
    decide
  · rw [analyze_languages]
    decide

/-! ## Shape of the main idea -/

theorem head_dropWhile_false (p : Char → Bool) (l : List Char) (c : Char)
    (h : (l.dropWhile p).head? = some c) : p c = false := by
  have h1 := List.head?_dropWhile_not p l
  rw [h] at h1
  exact h1

theorem getLast_dropWhile (p : Char → Bool) (l : List Char) (c : Char)
    (hl : l.getLast? = some c) (hne : l.dropWhile p ≠ []) :
    (l.dropWhile p).getLast? = some c := by
  induction l with
  | nil => simp at hl
  | cons x xs ih =>
    rw [List.dropWhile_cons] at hne ⊢
    by_cases hx : p x = true
    · rw [if_pos hx] at hne ⊢
      cases xs with
      | nil => simp at hne
      | cons y ys =>
        rw [List.getLast?_cons_cons] at hl
        exact ih hl hne
    · rw [if_neg hx]
      exact hl

theorem trimChars_edges (x : List Char) (hne : trimChars x ≠ []) :
    (trimChars x).head?.map isTrimChar = some false ∧
      (trimChars x).getLast?.map isTrimChar = some false := by
  unfold trimChars at hne ⊢
  have hz : (x.dropWhile isTrimChar).reverse.dropWhile isTrimChar ≠ [] := by
    intro h
    rw [h] at hne
    exact hne rfl
  rw [List.head?_reverse, List.getLast?_reverse]
  refine ⟨?_, ?_⟩
  · cases hy : x.dropWhile isTrimChar with
    | nil =>
      rw [hy] at hz
      exact absurd rfl hz
    | cons c y =>
      have hc : isTrimChar c = false :=
        head_dropWhile_false isTrimChar x c (by rw [hy]; rfl)
      have hlast : (c :: y).reverse.getLast? = some c := by
        rw [List.getLast?_reverse]
        rfl
      rw [hy] at hz
      rw [getLast_dropWhile isTrimChar _ c hlast hz]
      show some (isTrimChar c) = some false
      rw [hc]
  · cases hzz : (x.dropWhile isTrimChar).reverse.dropWhile isTrimChar with
    | nil => exact absurd hzz hz
    | cons d z =>
      have hd : isTrimChar d = false :=
        head_dropWhile_false isTrimChar _ d (by rw [hzz]; rfl)
      show some (isTrimChar d) = some false
      rw [hd]

theorem splitChars_no_newline (cs : List Char) : ∀ piece ∈ splitChars cs, '\n' ∉ piece := by
  induction cs with
  | nil =>
    intro piece hp
    simp only [splitChars, List.mem_singleton] at hp
    rw [hp]
    exact List.not_mem_nil _
  | cons c cs ih =>
    intro piece hp
    unfold splitChars at hp
    by_cases hc : c = '\n'
    · rw [if_pos hc] at hp
      rcases List.mem_cons.mp hp with h | h
      · rw [h]
        exact List.not_mem_nil _
      · exact ih piece h
    · rw [if_neg hc] at hp
      cases hs : splitChars cs with
      | nil =>
        rw [hs] at hp
        simp only [List.mem_singleton] at hp
        rw [hp]
        simpa using fun h => hc h.symm
      | cons l ls =>
        rw [hs] at hp ih
        rcases List.mem_cons.mp hp with h | h
        · rw [h]
          intro hmem
          rcases List.mem_cons.mp hmem with h1 | h1
          · exact hc h1.symm
          · exact ih l (List.mem_cons_self _ _) h1
        · exact ih piece (List.mem_cons_of_mem _ h)

theorem trimChars_subset (x : List Char) (c : Char) (h : c ∈ trimChars x) : c ∈ x := by
  unfold trimChars at h
  rw [List.mem_reverse] at h
  have h1 := (List.dropWhile_sublist isTrimChar).subset h
  rw [List.mem_reverse] at h1
  exact (List.dropWhile_sublist isTrimChar).subset h1

theorem readmeLines_tidy (c : String) : ∀ l ∈ readmeLines c, tidy l := by
  intro l hl
  unfold readmeLines at hl
  rw [List.mem_filter] at hl
  obtain ⟨hmem, hne⟩ := hl
  obtain ⟨x, hx, rfl⟩ := List.mem_map.mp hmem
  unfold split at hx
  obtain ⟨piece, hpiece, rfl⟩ := List.mem_map.mp hx
  have hne1 : trimChars piece ≠ [] := by
    intro h
    have : trim (String.mk piece) = "" := by
      unfold trim
      rw [h]
    simp [this] at hne
  have hedges := trimChars_edges piece hne1
  refine ⟨?_, hedges.1, hedges.2⟩
  intro hn
  exact splitChars_no_newline c.data piece hpiece (trimChars_subset piece _ hn)

theorem join_tidy (a : String) (rest : List String) (h : ∀ l ∈ a :: rest, tidy l) :
    tidy (join " " (a :: rest)) := by
  induction rest generalizing a with
  | nil => exact h a (List.mem_cons_self _ _)
  | cons b rest ih =>
    have ha := h a (List.mem_cons_self _ _)
    have hj := ih b (fun l hl => h l (List.mem_cons_of_mem _ hl))
    obtain ⟨ha1, ha2, _⟩ := ha
    obtain ⟨hj1, _, hj3⟩ := hj
    have hdata : (join " " (a :: b :: rest)).data =
        a.data ++ (' ' :: (join " " (b :: rest)).data) := by
      show (a ++ " " ++ join " " (b :: rest)).data = _
      rw [String.data_append, String.data_append]
      show (a.data ++ [' ']) ++ _ = _
      rw [List.append_assoc]
      rfl
    unfold tidy
    rw [hdata]
    refine ⟨?_, ?_, ?_⟩
    · intro hmem
      rcases List.mem_append.mp hmem with h1 | h1
      · exact ha1 h1
      · rcases List.mem_cons.mp h1 with h2 | h2
        · exact absurd h2 (by decide)
        · exact hj1 h2
    · cases hd : a.data with
      | nil =>
        rw [hd] at ha2
        cases ha2
      | cons c cs =>
        rw [hd] at ha2
        exact ha2
    · rw [List.getLast?_append]
      cases hl : (join " " (b :: rest)).data.getLast? with
      | none =>
        rw [hl] at hj3
        cases hj3
      | some d =>
        rw [hl] at hj3
        have : (' ' :: (join " " (b :: rest)).data).getLast? = some d := by
          cases hdd : (join " " (b :: rest)).data with
          | nil => rw [hdd] at hl; cases hl
          | cons e es =>
            rw [List.getLast?_cons_cons, ← hdd]
            exact hl
        rw [this]
        exact hj3

theorem extractionOf_tidy (c : String) : tidy (extractionOf c).mainIdea := by
  show tidy (orDefault (some (join " " ((readmeLines c).take 3)))
    "README exists but no main idea detected")
  cases ht : (readmeLines c).take 3 with
  | nil =>
    have hfb : tidy "README exists but no main idea detected" := by
      refine ⟨by decide, by decide, by decide⟩
    exact hfb
  | cons a rest =>
    have hall : ∀ l ∈ a :: rest, tidy l := by
      intro l hl
      rw [← ht] at hl
      exact readmeLines_tidy c l (List.mem_of_mem_take hl)
    have hj := join_tidy a rest hall
    have hne : join " " (a :: rest) ≠ "" := by
      intro h
      rw [h] at hj
      have := hj.2.1
      cases this
    rw [orDefault_of_present _ _ hne]
    exact hj

theorem extract_mainIdea_tidy (repo : RawRepository) :
    tidy (extractReadmeMainIdea repo).mainIdea := by
  rcases extract_cases repo with h | ⟨c, h⟩
  · rw [h]
    refine ⟨by decide, by decide, by decide⟩
  · rw [h]
    exact extractionOf_tidy c

/-- C20, as the code satisfies it. The main idea returned by
`extractReadmeMainIdea` contains no line feed and neither begins nor ends with
white space, so the entry `README Main Idea: ` followed by the main idea contains
no line feed either. (A carriage return or another line terminator may remain
inside a line.) -/
theorem mainIdea_has_no_line_feed (repo : RawRepository) :
    '\n' ∉ (extractReadmeMainIdea repo).mainIdea.data ∧
    (extractReadmeMainIdea repo).mainIdea.data.head?.map isTrimChar = some false ∧
    (extractReadmeMainIdea repo).mainIdea.data.getLast?.map isTrimChar = some false ∧
    '\n' ∉ ("README Main Idea: " ++ (extractReadmeMainIdea repo).mainIdea).data := by
  obtain ⟨h1, h2, h3⟩ := extract_mainIdea_tidy repo
  refine ⟨h1, h2, h3, ?_⟩
  rw [String.data_append]
  intro hmem
  rcases List.mem_append.mp hmem with h | h
  · revert h
    decide
  · exact h1 h

/-- C20 as worded fails: the README `a`, carriage return, `b` is one line for
`split`, `trim` leaves the inner carriage return, and the main idea contains that
line-break character. -/
theorem mainIdea_keeps_carriage_return :
    (extractReadmeMainIdea carriageReturnReadme).mainIdea = "a\rb" ∧
    '\r' ∈ (extractReadmeMainIdea carriageReturnReadme).mainIdea.data ∧
    isTrimChar '\r' = true := by
  refine ⟨by decide, by decide, by decide⟩

end Analysis
